import Mathlib

set_option linter.unusedVariables false

/-!
Verification of the repository analysis-and-synthesis pipeline of the
CognitoForge backend: the file-risk scanner and manifest builder
(`backend/app/services/repo_fetcher.py`), the attack-plan synthesizer and its
sanitization/fallback layers (`backend/app/services/gemini_service.py`), and
the run orchestrator's cache and report assembly
(`backend/app/routers/operations.py`).

Python values flowing through the services are modelled by the `PyVal` type;
strings are Lean `String`s (the services only handle ASCII-relevant cases for
casing and whitespace); Python `re.sub` based redaction is modelled by an
executable token-list matcher; external effects (filesystem reads, the Gemini
HTTP endpoint, persistence) are modelled as explicit oracle parameters, since
they are collaborators outside the functions under verification.
-/

namespace Spec2Proof

/-- Python whitespace for the ASCII range: the characters matched by regex
wildcard backslash-s and trimmed by str.strip in CPython
(space, tab, newline, carriage return, vertical tab, form feed). -/
def isPySpace (c : Char) : Bool :=
  c = ' ' || c = '\t' || c = '\n' || c = '\r' || c = Char.ofNat 11 || c = Char.ofNat 12

/-- List-level model of Python str.strip(): drop leading whitespace, then
trailing whitespace (via reverse). -/
def pyStripList (s : List Char) : List Char :=
  ((s.dropWhile isPySpace).reverse.dropWhile isPySpace).reverse

/-- Model of Python str.strip() on strings. -/
def pyStrip (s : String) : String :=
  String.mk (pyStripList s.data)

/-- Model of Python str.lower() for the ASCII range the services handle. -/
def pyLower (s : String) : String :=
  String.mk (s.data.map Char.toLower)

theorem dropWhile_head_false {p : Char → Bool} :
    ∀ (l : List Char) (c : Char), (l.dropWhile p).head? = some c → p c = false := by
  intro l
  induction l with
  | nil => intro c h; simp [List.dropWhile] at h
  | cons x xs ih =>
    intro c h
    by_cases hx : p x
    · rw [List.dropWhile_cons, if_pos hx] at h
      exact ih c h
    · rw [List.dropWhile_cons, if_neg hx] at h
      simp at h
      rw [← h]
      simpa using hx

theorem dropWhile_eq_self_of_head {p : Char → Bool} (l : List Char)
    (h : ∀ c, l.head? = some c → p c = false) : l.dropWhile p = l := by
  cases l with
  | nil => rfl
  | cons x xs =>
    have hx : p x = false := h x rfl
    simp [List.dropWhile_cons, hx]

theorem getLast?_dropWhile {p : Char → Bool} :
    ∀ (l : List Char), l.dropWhile p = [] ∨
      (l.dropWhile p ≠ [] ∧ (l.dropWhile p).getLast? = l.getLast?) := by
  intro l
  induction l with
  | nil => left; rfl
  | cons x xs ih =>
    by_cases hx : p x
    · rw [List.dropWhile_cons, if_pos hx]
      rcases ih with h | ⟨hne, hlast⟩
      · left; exact h
      · right
        refine ⟨hne, ?_⟩
        rw [hlast]
        cases xs with
        | nil => simp [List.dropWhile] at hne
        | cons b l2 => exact (List.getLast?_cons_cons).symm
    · rw [List.dropWhile_cons, if_neg hx]
      right
      exact ⟨by simp, rfl⟩

theorem pyStripList_head (s : List Char) :
    ∀ c, (pyStripList s).head? = some c → isPySpace c = false := by
  intro c h
  unfold pyStripList at h
  rw [List.head?_reverse] at h
  rcases getLast?_dropWhile ((s.dropWhile isPySpace).reverse) with hnil | ⟨hne, hlast⟩
  · rw [hnil] at h; simp at h
  · rw [hlast, List.getLast?_reverse] at h
    exact dropWhile_head_false s c h

theorem pyStripList_idem (s : List Char) : pyStripList (pyStripList s) = pyStripList s := by
  have h1 : (pyStripList s).dropWhile isPySpace = pyStripList s :=
    dropWhile_eq_self_of_head _ (pyStripList_head s)
  show pyStripList (pyStripList s) = pyStripList s
  unfold pyStripList
  unfold pyStripList at h1
  rw [h1]
  rw [List.reverse_reverse]
  rw [dropWhile_eq_self_of_head _ (fun c h => dropWhile_head_false _ c h)]

/-- The stripped list sits inside the original: str.strip removes only a
prefix and a suffix. -/
theorem pyStripList_decomp (s : List Char) :
    ∃ u v, s = u ++ pyStripList s ++ v := by
  have h1 : s.takeWhile isPySpace ++ s.dropWhile isPySpace = s :=
    List.takeWhile_append_dropWhile _ _
  have h2 : (s.dropWhile isPySpace).reverse.takeWhile isPySpace
      ++ (s.dropWhile isPySpace).reverse.dropWhile isPySpace
      = (s.dropWhile isPySpace).reverse :=
    List.takeWhile_append_dropWhile _ _
  have h3 : s.dropWhile isPySpace
      = pyStripList s ++ ((s.dropWhile isPySpace).reverse.takeWhile isPySpace).reverse := by
    have h4 := congrArg List.reverse h2
    rw [List.reverse_reverse, List.reverse_append] at h4
    exact h4.symm
  exact ⟨_, _, by rw [List.append_assoc, ← h3, h1]⟩

/-! ### JSON-shaped Python values -/

/-- JSON-shaped Python values as produced by json.loads and passed between the
services (keys of decoded JSON objects are always strings). -/
inductive PyVal where
  | str (s : String)
  | int (n : Int)
  | bool (b : Bool)
  | null
  | list (xs : List PyVal)
  | dict (entries : List (String × PyVal))

mutual

/-- Python repr() of a decoded JSON value, to the extent the services can
observe it. Escaping of quotes embedded in string repr is not modelled: repr
output only ever feeds severity/technique normalisation, where any list or
dict rendering falls outside the relevant allow-lists regardless of escaping. -/
def pyRepr : PyVal → String
  | .str s => "\x27" ++ s ++ "\x27"
  | .int n => toString n
  | .bool true => "True"
  | .bool false => "False"
  | .null => "None"
  | .list xs => "[" ++ pyReprSeq xs ++ "]"
  | .dict xs => "\x7b" ++ pyReprEntries xs ++ "\x7d"

def pyReprSeq : List PyVal → String
  | [] => ""
  | [x] => pyRepr x
  | x :: y :: xs => pyRepr x ++ ", " ++ pyReprSeq (y :: xs)

def pyReprEntries : List (String × PyVal) → String
  | [] => ""
  | [e] => "\x27" ++ e.1 ++ "\x27: " ++ pyRepr e.2
  | e :: f :: es => "\x27" ++ e.1 ++ "\x27: " ++ pyRepr e.2 ++ ", " ++ pyReprEntries (f :: es)

end

/-- Python str() applied to a decoded JSON value: the contents for strings,
a repr-like rendering otherwise. -/
def pyStr : PyVal → String
  | .str s => s
  | .int n => toString n
  | .bool true => "True"
  | .bool false => "False"
  | .null => "None"
  | .list xs => pyRepr (.list xs)
  | .dict xs => pyRepr (.dict xs)

/-- Python dict.get(key) on a decoded JSON object; decoded dicts have unique
keys, so first binding wins. -/
def dictGet (entries : List (String × PyVal)) (key : String) : Option PyVal :=
  (entries.find? (fun e => e.1 == key)).map (fun e => e.2)

/-! ### Stable sorting, modelling Python sorted(...) -/

/-- Stable insertion: x is placed after every element whose key is not
greater, which preserves input order on equal keys exactly as Python
list.sort / sorted do. -/
def insertOrd {A K : Type} [LinearOrder K] (key : A → K) (x : A) : List A → List A
  | [] => [x]
  | y :: ys => if key x < key y then x :: y :: ys else y :: insertOrd key x ys

/-- Model of Python sorted(l, key=key): stable, ascending by key. -/
def pySorted {A K : Type} [LinearOrder K] (key : A → K) (l : List A) : List A :=
  l.foldl (fun acc x => insertOrd key x acc) []

theorem mem_insertOrd {A K : Type} [LinearOrder K] (key : A → K) (x a : A) :
    ∀ l : List A, a ∈ insertOrd key x l ↔ a = x ∨ a ∈ l := by
  intro l
  induction l with
  | nil => simp [insertOrd]
  | cons y ys ih =>
    by_cases hlt : key x < key y
    · rw [insertOrd, if_pos hlt]
      simp
    · rw [insertOrd, if_neg hlt]
      simp only [List.mem_cons, ih]
      tauto

theorem insertOrd_perm {A K : Type} [LinearOrder K] (key : A → K) (x : A) :
    ∀ l : List A, (insertOrd key x l).Perm (x :: l) := by
  intro l
  induction l with
  | nil => simp [insertOrd]
  | cons y ys ih =>
    by_cases hlt : key x < key y
    · rw [insertOrd, if_pos hlt]
    · rw [insertOrd, if_neg hlt]
      exact (ih.cons y).trans (List.Perm.swap x y ys)

theorem insertOrd_pairwise {A K : Type} [LinearOrder K] (key : A → K) (x : A) :
    ∀ l : List A, l.Pairwise (fun a b => key a ≤ key b) →
      (insertOrd key x l).Pairwise (fun a b => key a ≤ key b) := by
  intro l
  induction l with
  | nil => intro _; simp [insertOrd]
  | cons y ys ih =>
    intro hp
    rw [List.pairwise_cons] at hp
    by_cases hlt : key x < key y
    · rw [insertOrd, if_pos hlt]
      refine List.pairwise_cons.mpr ⟨?_, List.pairwise_cons.mpr hp⟩
      intro b hb
      rcases List.mem_cons.mp hb with hb | hb
      · rw [hb]; exact le_of_lt hlt
      · exact le_trans (le_of_lt hlt) (hp.1 b hb)
    · rw [insertOrd, if_neg hlt]
      refine List.pairwise_cons.mpr ⟨?_, ih hp.2⟩
      intro b hb
      rcases (mem_insertOrd key x b ys).mp hb with hb | hb
      · rw [hb]; exact le_of_not_lt hlt
      · exact hp.1 b hb

theorem pySorted_perm {A K : Type} [LinearOrder K] (key : A → K) (l : List A) :
    (pySorted key l).Perm l := by
  suffices h : ∀ (l acc : List A),
      (l.foldl (fun acc x => insertOrd key x acc) acc).Perm (acc ++ l) by
    simpa using h l []
  intro l
  induction l with
  | nil => intro acc; simp
  | cons x xs ih =>
    intro acc
    rw [List.foldl_cons]
    refine (ih (insertOrd key x acc)).trans ?_
    refine (List.Perm.append_right xs ((insertOrd_perm key x acc))).trans ?_
    exact List.perm_middle.symm

theorem pySorted_pairwise {A K : Type} [LinearOrder K] (key : A → K) (l : List A) :
    (pySorted key l).Pairwise (fun a b => key a ≤ key b) := by
  suffices h : ∀ (l acc : List A),
      acc.Pairwise (fun a b => key a ≤ key b) →
      (l.foldl (fun acc x => insertOrd key x acc) acc).Pairwise
        (fun a b => key a ≤ key b) by
    exact h l [] (by simp)
  intro l
  induction l with
  | nil => intro acc hacc; simpa using hacc
  | cons x xs ih =>
    intro acc hacc
    rw [List.foldl_cons]
    exact ih _ (insertOrd_pairwise key x acc hacc)

/-! ### The redaction engine behind gemini_service._sanitize_text

Every regex used by the redaction pass is a sequence of literal characters,
at most one greedy one-or-more whitespace wildcard, or a fixed-length
character class, so Python re.sub over these patterns is modelled by an
executable token matcher plus a leftmost non-overlapping substitution. -/

/-- One element of a sanitizer regex. -/
inductive Tok where
  | lit (c : Char) (ci : Bool)
  | ws
  | cls (p : Char → Bool) (n : Nat)

/-- Literal matching, with optional re.IGNORECASE (ASCII case folding; the
sanitizer patterns are pure ASCII). -/
def litMatches (ci : Bool) (c x : Char) : Bool :=
  if ci then x.toLower == c.toLower else x == c

/-- Which single characters a token can consume. -/
def tokAccepts : Tok → Char → Bool
  | .lit c ci, x => litMatches ci c x
  | .ws, x => isPySpace x
  | .cls p _, x => p x

/-- Match the token sequence against a prefix of the input, returning the
suffix after the match. Maximal munch for the whitespace wildcard agrees
with Python regex backtracking here because in every sanitizer pattern the
token following the wildcard (when there is one) matches no whitespace
character, so shorter whitespace runs always fail as well. -/
def matchToks : List Tok → List Char → Option (List Char)
  | [], s => some s
  | .lit _ _ :: _, [] => none
  | .lit c ci :: ts, x :: s => if litMatches ci c x then matchToks ts s else none
  | .ws :: ts, s =>
      if (s.takeWhile isPySpace).isEmpty then none
      else matchToks ts (s.dropWhile isPySpace)
  | .cls p n :: ts, s =>
      if s.length < n then none
      else if (s.take n).all p then matchToks ts (s.drop n) else none

/-- Outcome of the three-valued matcher `runToks`. -/
inductive MRes where
  | fail
  | needMore
  | success (rest : List Char)

def isFail : MRes → Bool
  | .fail => true
  | _ => false

/-- Three-valued matcher: a fail outcome means that no extension of the input
can produce a match at this position. -/
def runToks : List Tok → List Char → MRes
  | [], s => .success s
  | .lit _ _ :: _, [] => .needMore
  | .lit c ci :: ts, x :: s => if litMatches ci c x then runToks ts s else .fail
  | .ws :: ts, s =>
      if (s.dropWhile isPySpace).isEmpty then .needMore
      else if (s.takeWhile isPySpace).isEmpty then .fail
      else runToks ts (s.dropWhile isPySpace)
  | .cls p n :: ts, s =>
      if s.length < n then (if s.all p then .needMore else .fail)
      else if (s.take n).all p then runToks ts (s.drop n) else .fail

/-- The sanitizer patterns all start with a literal, hence never match the
empty string and always consume at least one character. -/
def litHead : List Tok → Prop
  | .lit _ _ :: _ => True
  | _ => False

/-- No token of the pattern accepts a left square bracket (true of every
sanitizer pattern; the bracket delimits the redaction markers). -/
def noBracket (ts : List Tok) : Bool :=
  ts.all (fun t => !(tokAccepts t (Char.ofNat 91)))

/-- Every character class in the pattern requires at least one character. -/
def clsPositive (ts : List Tok) : Bool :=
  ts.all (fun t => match t with | .cls _ n => decide (0 < n) | _ => true)

theorem takeWhile_append_stop {p : Char → Bool} (b : Char) (hb : p b = false) :
    ∀ (u z : List Char), (u ++ b :: z).takeWhile p = u.takeWhile p := by
  intro u z
  induction u with
  | nil => simp [List.takeWhile_cons, hb]
  | cons a u ih =>
    by_cases ha : p a
    · simp [List.takeWhile_cons, ha, ih]
    · simp [List.takeWhile_cons, ha]

theorem dropWhile_append_stop {p : Char → Bool} (b : Char) (hb : p b = false) :
    ∀ (u z : List Char), (u ++ b :: z).dropWhile p = u.dropWhile p ++ b :: z := by
  intro u z
  induction u with
  | nil => simp [List.dropWhile_cons, hb]
  | cons a u ih =>
    by_cases ha : p a
    · simp [List.dropWhile_cons, ha, ih]
    · simp [List.dropWhile_cons, ha]

theorem dropWhile_append_of_ne {p : Char → Bool} :
    ∀ (v w : List Char), v.dropWhile p ≠ [] →
      (v ++ w).dropWhile p = v.dropWhile p ++ w := by
  intro v
  induction v with
  | nil => intro w h; simp [List.dropWhile] at h
  | cons a v ih =>
    intro w h
    by_cases ha : p a
    · rw [List.dropWhile_cons, if_pos ha] at h
      simp only [List.cons_append, List.dropWhile_cons, if_pos ha]
      exact ih w h
    · simp only [List.cons_append, List.dropWhile_cons, if_neg ha]

theorem takeWhile_append_of_ne {p : Char → Bool} :
    ∀ (v w : List Char), v.dropWhile p ≠ [] →
      (v ++ w).takeWhile p = v.takeWhile p := by
  intro v
  induction v with
  | nil => intro w h; simp [List.dropWhile] at h
  | cons a v ih =>
    intro w h
    by_cases ha : p a
    · rw [List.dropWhile_cons, if_pos ha] at h
      simp only [List.cons_append, List.takeWhile_cons, if_pos ha]
      rw [ih w h]
    · simp only [List.cons_append, List.takeWhile_cons, if_neg ha]

theorem matchToks_suffix : ∀ (ts : List Tok) (s r : List Char),
    matchToks ts s = some r → r.IsSuffix s := by
  intro ts
  induction ts with
  | nil =>
    intro s r h
    rw [matchToks] at h
    cases h
    exact List.suffix_rfl
  | cons t ts ih =>
    intro s r h
    cases t with
    | lit c ci =>
      cases s with
      | nil => exact absurd h (by rw [matchToks]; simp)
      | cons x s2 =>
        rw [matchToks] at h
        by_cases hc : litMatches ci c x
        · rw [if_pos hc] at h
          exact (ih s2 r h).trans (List.suffix_cons x s2)
        · rw [if_neg hc] at h; cases h
    | ws =>
      rw [matchToks] at h
      by_cases he : (s.takeWhile isPySpace).isEmpty
      · rw [if_pos he] at h; cases h
      · rw [if_neg he] at h
        exact (ih _ r h).trans (List.dropWhile_suffix isPySpace)
    | cls p n =>
      rw [matchToks] at h
      by_cases hlen : s.length < n
      · rw [if_pos hlen] at h; cases h
      · rw [if_neg hlen] at h
        by_cases hall : (s.take n).all p
        · rw [if_pos hall] at h
          exact (ih _ r h).trans (List.drop_suffix n s)
        · rw [if_neg hall] at h; cases h

theorem matchToks_nil_of_litHead {ts : List Tok} (h : litHead ts) :
    matchToks ts [] = none := by
  cases ts with
  | nil => simp [litHead] at h
  | cons t ts =>
    cases t with
    | lit c ci => rw [matchToks]
    | ws => simp [litHead] at h
    | cls p n => simp [litHead] at h

theorem matchToks_lt {ts : List Tok} (hts : litHead ts) :
    ∀ (s r : List Char), matchToks ts s = some r → r.length < s.length := by
  intro s r h
  cases ts with
  | nil => simp [litHead] at hts
  | cons t ts =>
    cases t with
    | lit c ci =>
      cases s with
      | nil => rw [matchToks] at h; cases h
      | cons x s2 =>
        rw [matchToks] at h
        by_cases hc : litMatches ci c x
        · rw [if_pos hc] at h
          have := (matchToks_suffix ts s2 r h).length_le
          simpa using Nat.lt_succ_of_le this
        · rw [if_neg hc] at h; cases h
    | ws => simp [litHead] at hts
    | cls p n => simp [litHead] at hts

/-- The left bracket delimiting the redaction markers. -/
def lbrack : Char := Char.ofNat 91

theorem dropWhile_append_nil {p : Char → Bool} :
    ∀ (u w : List Char), u.dropWhile p = [] →
      (u ++ w).dropWhile p = w.dropWhile p := by
  intro u
  induction u with
  | nil => intro w _; rfl
  | cons a u ih =>
    intro w h
    rw [List.dropWhile_cons] at h
    by_cases ha : p a
    · rw [if_pos ha] at h
      simp only [List.cons_append, List.dropWhile_cons, if_pos ha]
      exact ih w h
    · rw [if_neg ha] at h
      cases h

theorem matchToks_empty_some {ts : List Tok} (hcls : clsPositive ts = true)
    {r : List Char} (h : matchToks ts [] = some r) : ts = [] := by
  cases ts with
  | nil => rfl
  | cons t ts =>
    cases t with
    | lit c ci => rw [matchToks] at h; cases h
    | ws => rw [matchToks] at h; simp [List.takeWhile] at h
    | cls p n =>
      rw [matchToks] at h
      have hn : 0 < n := by
        rw [clsPositive, List.all_cons] at hcls
        simpa using (Bool.and_elim_left hcls)
      rw [if_pos (by simpa using hn)] at h
      cases h

theorem runToks_fail_absorbs : ∀ (ts : List Tok) (v w : List Char),
    runToks ts v = .fail → matchToks ts (v ++ w) = none := by
  intro ts
  induction ts with
  | nil => intro v w h; rw [runToks] at h; cases h
  | cons t ts ih =>
    intro v w h
    cases t with
    | lit c ci =>
      cases v with
      | nil => rw [runToks] at h; cases h
      | cons x v2 =>
        rw [runToks] at h
        by_cases hc : litMatches ci c x
        · rw [if_pos hc] at h
          simpa [matchToks, hc] using ih v2 w h
        · simp [matchToks, hc]
    | ws =>
      rw [runToks] at h
      by_cases hdw : (v.dropWhile isPySpace).isEmpty
      · rw [if_pos hdw] at h; cases h
      · rw [if_neg hdw] at h
        by_cases htw : (v.takeWhile isPySpace).isEmpty
        · -- head of v is a non-whitespace character
          cases v with
          | nil => simp [List.dropWhile] at hdw
          | cons a v2 =>
            have ha : isPySpace a = false := by
              by_cases has : isPySpace a
              · rw [List.takeWhile_cons, if_pos has] at htw; simp at htw
              · simpa using has
            have htkw : (a :: (v2 ++ w)).takeWhile isPySpace = [] := by
              rw [List.takeWhile_cons, if_neg (by simp [ha])]
            rw [List.cons_append, matchToks, htkw]
            simp
        · rw [if_neg htw] at h
          have hne : v.dropWhile isPySpace ≠ [] := by
            simpa [List.isEmpty_iff] using hdw
          rw [matchToks,
            takeWhile_append_of_ne v w hne,
            if_neg htw,
            dropWhile_append_of_ne v w hne]
          exact ih _ w h
    | cls p n =>
      rw [runToks] at h
      by_cases hlen : v.length < n
      · rw [if_pos hlen] at h
        by_cases hall : v.all p
        · rw [if_pos hall] at h; cases h
        · -- some character of v already violates the class
          rw [matchToks]
          by_cases hlen2 : (v ++ w).length < n
          · rw [if_pos hlen2]
          · rw [if_neg hlen2]
            have : ((v ++ w).take n).all p = false := by
              rw [List.take_append_eq_append_take,
                List.take_of_length_le (le_of_lt hlen)]
              rw [List.all_append]
              simp [hall]
            rw [this]
            simp
      · rw [if_neg hlen] at h
        by_cases hall : (v.take n).all p
        · rw [if_pos hall] at h
          rw [matchToks]
          have hlen2 : ¬ (v ++ w).length < n := by
            simp only [List.length_append]
            omega
          rw [if_neg hlen2]
          have htake : (v ++ w).take n = v.take n := by
            rw [List.take_append_eq_append_take]
            have : n - v.length = 0 := by omega
            rw [this]
            simp
          rw [htake, if_pos hall]
          have hdrop : (v ++ w).drop n = v.drop n ++ w := by
            rw [List.drop_append_eq_append_drop]
            have : n - v.length = 0 := by omega
            rw [this]
            simp
          rw [hdrop]
          exact ih _ w h
        · rw [matchToks]
          by_cases hlen2 : (v ++ w).length < n
          · rw [if_pos hlen2]
          · rw [if_neg hlen2]
            have htake : (v ++ w).take n = v.take n := by
              rw [List.take_append_eq_append_take]
              have : n - v.length = 0 := by omega
              rw [this]
              simp
            rw [htake, if_neg hall]

theorem matchToks_extend : ∀ (ts : List Tok), clsPositive ts = true →
    ∀ (y z : List Char), (matchToks ts y).isSome →
      (matchToks ts (y ++ z)).isSome := by
  intro ts
  induction ts with
  | nil => intro _ y z _; simp [matchToks]
  | cons t ts ih =>
    intro hcls y z hy
    have hclt : clsPositive ts = true := by
      rw [clsPositive, List.all_cons] at hcls
      exact Bool.and_elim_right hcls
    cases t with
    | lit c ci =>
      cases y with
      | nil => rw [matchToks] at hy; simp at hy
      | cons x y2 =>
        rw [matchToks] at hy
        by_cases hc : litMatches ci c x
        · rw [if_pos hc] at hy
          simpa [matchToks, hc] using ih hclt y2 z hy
        · rw [if_neg hc] at hy; simp at hy
    | ws =>
      rw [matchToks] at hy
      by_cases htw : (y.takeWhile isPySpace).isEmpty
      · rw [if_pos htw] at hy; simp at hy
      · rw [if_neg htw] at hy
        have hyne : y ≠ [] := by
          intro hnil; rw [hnil] at htw; simp [List.takeWhile] at htw
        obtain ⟨a, y2, rfl⟩ := List.exists_cons_of_ne_nil hyne
        have ha : isPySpace a = true := by
          by_cases has : isPySpace a
          · exact has
          · rw [List.takeWhile_cons, if_neg has] at htw; simp at htw
        by_cases hdw : ((a :: y2).dropWhile isPySpace).isEmpty
        · -- all of y is whitespace; the tail pattern must be empty
          have hrest : matchToks ts ((a :: y2).dropWhile isPySpace) = matchToks ts [] := by
            rw [List.isEmpty_iff] at hdw
            rw [hdw]
          rw [hrest] at hy
          obtain ⟨r, hr⟩ := Option.isSome_iff_exists.mp hy
          have hts : ts = [] := matchToks_empty_some hclt hr
          rw [hts]
          rw [matchToks]
          rw [List.cons_append, List.takeWhile_cons, if_pos ha]
          simp [matchToks]
        · have hne : (a :: y2).dropWhile isPySpace ≠ [] := by
            simpa [List.isEmpty_iff] using hdw
          rw [matchToks,
            takeWhile_append_of_ne _ z hne,
            if_neg htw,
            dropWhile_append_of_ne _ z hne]
          exact ih hclt _ z hy
    | cls p n =>
      rw [matchToks] at hy
      by_cases hlen : y.length < n
      · rw [if_pos hlen] at hy; simp at hy
      · rw [if_neg hlen] at hy
        by_cases hall : (y.take n).all p
        · rw [if_pos hall] at hy
          rw [matchToks]
          have hlen2 : ¬ (y ++ z).length < n := by
            simp only [List.length_append]; omega
          rw [if_neg hlen2]
          have htake : (y ++ z).take n = y.take n := by
            rw [List.take_append_eq_append_take]
            have : n - y.length = 0 := by omega
            rw [this]; simp
          rw [htake, if_pos hall]
          have hdrop : (y ++ z).drop n = y.drop n ++ z := by
            rw [List.drop_append_eq_append_drop]
            have : n - y.length = 0 := by omega
            rw [this]; simp
          rw [hdrop]
          exact ih hclt _ z hy
        · rw [if_neg hall] at hy; simp at hy

theorem matchToks_transfer : ∀ (ts : List Tok), noBracket ts = true →
    ∀ (u z : List Char), (matchToks ts (u ++ lbrack :: z)).isSome →
      ∀ (w : List Char), (matchToks ts (u ++ w)).isSome := by
  intro ts
  induction ts with
  | nil => intro _ u z _ w; simp [matchToks]
  | cons t ts ih =>
    intro hnb u z hu w
    have hnbh : tokAccepts t lbrack = false := by
      rw [noBracket, List.all_cons] at hnb
      simpa using Bool.and_elim_left hnb
    have hnbt : noBracket ts = true := by
      rw [noBracket, List.all_cons] at hnb
      exact Bool.and_elim_right hnb
    cases t with
    | lit c ci =>
      cases u with
      | nil =>
        rw [List.nil_append, matchToks] at hu
        rw [tokAccepts] at hnbh
        rw [if_neg (by simp [hnbh])] at hu
        simp at hu
      | cons a u2 =>
        rw [List.cons_append, matchToks] at hu
        by_cases hc : litMatches ci c a
        · rw [if_pos hc] at hu
          simpa [matchToks, hc] using ih hnbt u2 z hu w
        · rw [if_neg hc] at hu; simp at hu
    | ws =>
      have hlb : isPySpace lbrack = false := by decide
      rw [matchToks, takeWhile_append_stop lbrack hlb,
        dropWhile_append_stop lbrack hlb] at hu
      by_cases htw : (u.takeWhile isPySpace).isEmpty
      · rw [if_pos htw] at hu; simp at hu
      · rw [if_neg htw] at hu
        have hune : u ≠ [] := by
          intro hnil; rw [hnil] at htw; simp [List.takeWhile] at htw
        obtain ⟨a, u2, rfl⟩ := List.exists_cons_of_ne_nil hune
        have ha : isPySpace a = true := by
          by_cases has : isPySpace a
          · exact has
          · rw [List.takeWhile_cons, if_neg has] at htw; simp at htw
        by_cases hdw : ((a :: u2).dropWhile isPySpace).isEmpty
        · -- u is pure whitespace: the whitespace run may extend into w
          have hdweq : (a :: u2).dropWhile isPySpace = [] := List.isEmpty_iff.mp hdw
          rw [hdweq, List.nil_append] at hu
          have hrec := ih hnbt [] z (by simpa using hu)
          rw [matchToks]
          have htw2 : ¬ ((a :: u2 ++ w).takeWhile isPySpace).isEmpty := by
            rw [List.cons_append, List.takeWhile_cons, if_pos ha]
            simp
          rw [if_neg htw2]
          have hdw2 : (a :: u2 ++ w).dropWhile isPySpace = w.dropWhile isPySpace :=
            dropWhile_append_nil _ w hdweq
          rw [hdw2]
          simpa using hrec (w.dropWhile isPySpace)
        · have hne : (a :: u2).dropWhile isPySpace ≠ [] := by
            simpa [List.isEmpty_iff] using hdw
          rw [matchToks,
            takeWhile_append_of_ne _ w hne,
            if_neg htw,
            dropWhile_append_of_ne _ w hne]
          exact ih hnbt _ z hu w
    | cls p n =>
      rw [tokAccepts] at hnbh
      rw [matchToks] at hu
      by_cases hlen : (u ++ lbrack :: z).length < n
      · rw [if_pos hlen] at hu; simp at hu
      · rw [if_neg hlen] at hu
        by_cases hun : n ≤ u.length
        · by_cases hall : (u.take n).all p
          · have htake : (u ++ lbrack :: z).take n = u.take n := by
              rw [List.take_append_eq_append_take]
              have : n - u.length = 0 := by omega
              rw [this]; simp
            rw [htake, if_pos hall] at hu
            have hdrop : (u ++ lbrack :: z).drop n = u.drop n ++ lbrack :: z := by
              rw [List.drop_append_eq_append_drop]
              have : n - u.length = 0 := by omega
              rw [this]; simp
            rw [hdrop] at hu
            have hrec := ih hnbt _ z hu w
            rw [matchToks]
            have hlen2 : ¬ (u ++ w).length < n := by
              simp only [List.length_append]; omega
            rw [if_neg hlen2]
            have htake2 : (u ++ w).take n = u.take n := by
              rw [List.take_append_eq_append_take]
              have : n - u.length = 0 := by omega
              rw [this]; simp
            rw [htake2, if_pos hall]
            have hdrop2 : (u ++ w).drop n = u.drop n ++ w := by
              rw [List.drop_append_eq_append_drop]
              have : n - u.length = 0 := by omega
              rw [this]; simp
            rw [hdrop2]
            exact hrec
          · have htake : (u ++ lbrack :: z).take n = u.take n := by
              rw [List.take_append_eq_append_take]
              have : n - u.length = 0 := by omega
              rw [this]; simp
            rw [htake, if_neg hall] at hu
            simp at hu
        · -- the class would need to consume the bracket itself
          have htake : (u ++ lbrack :: z).take n
              = u ++ (lbrack :: z).take (n - u.length) := by
            rw [List.take_append_eq_append_take]
            rw [List.take_of_length_le (by omega)]
          rw [htake] at hu
          have hpos : 0 < n - u.length := by omega
          have : (lbrack :: z).take (n - u.length)
              = lbrack :: z.take (n - u.length - 1) := by
            cases hnu : n - u.length with
            | zero => omega
            | succ m => simp [List.take_succ_cons]
          rw [this] at hu
          have hfalse : (u ++ lbrack :: z.take (n - u.length - 1)).all p = false := by
            rw [List.all_append, List.all_cons, hnbh]
            simp
          rw [hfalse] at hu
          simp at hu

/-- A sanitizer substitution: a pattern together with its replacement
marker. Every pattern of _sanitize_text starts with a literal. -/
structure RePat where
  toks : List Tok
  marker : List Char
  head_lit : litHead toks

def substFuel (p : RePat) : Nat → List Char → List Char
  | 0, s => s
  | _ + 1, [] => []
  | fuel + 1, c :: rest =>
    match matchToks p.toks (c :: rest) with
    | some r => p.marker ++ substFuel p fuel r
    | none => c :: substFuel p fuel rest

/-- Python re.sub(pattern, marker, s): scan left to right, replace each
leftmost non-overlapping match by the marker. The fuel (initially the input
length) only drives well-foundedness; each match consumes at least one
character because every pattern starts with a literal. -/
def subst (p : RePat) (s : List Char) : List Char := substFuel p s.length s

theorem substFuel_congr (p : RePat) : ∀ (fuel1 fuel2 : Nat) (s : List Char),
    s.length ≤ fuel1 → s.length ≤ fuel2 →
      substFuel p fuel1 s = substFuel p fuel2 s := by
  intro fuel1
  induction fuel1 with
  | zero =>
    intro fuel2 s h1 h2
    have : s = [] := List.length_eq_zero.mp (Nat.le_zero.mp h1)
    rw [this]
    cases fuel2 with
    | zero => rfl
    | succ m => rfl
  | succ f ih =>
    intro fuel2 s h1 h2
    cases s with
    | nil =>
      cases fuel2 with
      | zero => rfl
      | succ m => rfl
    | cons c rest =>
      cases fuel2 with
      | zero => simp at h2
      | succ g =>
        rw [substFuel, substFuel]
        cases hm : matchToks p.toks (c :: rest) with
        | some r =>
          have hr : r.length < rest.length + 1 := matchToks_lt p.head_lit _ r hm
          simp only [List.length_cons] at h1 h2
          show p.marker ++ substFuel p f r = p.marker ++ substFuel p g r
          rw [ih g r (by omega) (by omega)]
        | none =>
          simp only [List.length_cons] at h1 h2
          show c :: substFuel p f rest = c :: substFuel p g rest
          rw [ih g rest (by omega) (by omega)]

theorem subst_cons_match (p : RePat) (c : Char) (rest r : List Char)
    (h : matchToks p.toks (c :: rest) = some r) :
    subst p (c :: rest) = p.marker ++ subst p r := by
  show substFuel p (c :: rest).length (c :: rest) = p.marker ++ substFuel p r.length r
  rw [List.length_cons, substFuel, h]
  have hr : r.length < rest.length + 1 := matchToks_lt p.head_lit _ r h
  show p.marker ++ substFuel p rest.length r = p.marker ++ substFuel p r.length r
  rw [substFuel_congr p rest.length r.length r (by omega) le_rfl]

theorem subst_cons_none (p : RePat) (c : Char) (rest : List Char)
    (h : matchToks p.toks (c :: rest) = none) :
    subst p (c :: rest) = c :: subst p rest := by
  show substFuel p (c :: rest).length (c :: rest) = c :: substFuel p rest.length rest
  rw [List.length_cons, substFuel, h]

/-- Some match of the pattern occurs somewhere in s. -/
def MatchesIn (ts : List Tok) (s : List Char) : Prop :=
  ∃ l y, s = l ++ y ∧ (matchToks ts y).isSome

theorem matchesIn_head {ts : List Tok} {s : List Char}
    (h : (matchToks ts s).isSome) : MatchesIn ts s :=
  ⟨[], s, rfl, h⟩

theorem matchesIn_cons {ts : List Tok} (c : Char) {s : List Char}
    (h : MatchesIn ts s) : MatchesIn ts (c :: s) := by
  obtain ⟨l, y, hs, hm⟩ := h
  exact ⟨c :: l, y, by rw [hs, List.cons_append], hm⟩

theorem matchesIn_cons_elim {ts : List Tok} {c : Char} {s : List Char} :
    MatchesIn ts (c :: s) → (matchToks ts (c :: s)).isSome ∨ MatchesIn ts s := by
  rintro ⟨l, y, hs, hm⟩
  cases l with
  | nil =>
    left
    rw [List.nil_append] at hs
    rw [hs]
    exact hm
  | cons a l2 =>
    right
    rw [List.cons_append] at hs
    exact ⟨l2, y, by injection hs with _ h2, hm⟩

theorem matchesIn_nil {ts : List Tok} (hts : litHead ts) : ¬ MatchesIn ts [] := by
  rintro ⟨l, y, hs, hm⟩
  have hy : y = [] := (List.append_eq_nil.mp hs.symm).2
  rw [hy, matchToks_nil_of_litHead hts] at hm
  simp at hm

theorem matchesIn_append_elim {ts : List Tok} : ∀ (x y : List Char),
    MatchesIn ts (x ++ y) →
      MatchesIn ts y ∨ ∃ x2, x2 ≠ [] ∧ x2.IsSuffix x ∧ (matchToks ts (x2 ++ y)).isSome := by
  intro x
  induction x with
  | nil => intro y h; left; simpa using h
  | cons a x2 ih =>
    intro y h
    rw [List.cons_append] at h
    rcases matchesIn_cons_elim h with hm | h2
    · right
      exact ⟨a :: x2, by simp, List.suffix_rfl, by simpa [List.cons_append] using hm⟩
    · rcases ih y h2 with h3 | ⟨x3, hne, hsuf, hm⟩
      · left; exact h3
      · right; exact ⟨x3, hne, hsuf.trans (List.suffix_cons a x2), hm⟩

theorem matchesIn_of_suffix {ts : List Tok} {s t : List Char}
    (hsuf : t.IsSuffix s) (h : MatchesIn ts t) : MatchesIn ts s := by
  obtain ⟨u, hu⟩ := hsuf
  obtain ⟨l, y, hsplit, hm⟩ := h
  exact ⟨u ++ l, y, by rw [← hu, hsplit, List.append_assoc], hm⟩

/-- Decidable check: the pattern definitively fails on every nonempty suffix
of the marker, so no match can start inside a marker occurrence. -/
def markerSafe (ts : List Tok) (M : List Char) : Bool :=
  M.tails.all (fun x2 => x2.isEmpty || isFail (runToks ts x2))

theorem markerSafe_spec {ts : List Tok} {M : List Char} (h : markerSafe ts M = true) :
    ∀ x2, x2.IsSuffix M → x2 ≠ [] → ∀ w, matchToks ts (x2 ++ w) = none := by
  intro x2 hsuf hne w
  have hx2 : x2 ∈ M.tails := (List.mem_tails x2 M).mpr hsuf
  have hall := List.all_eq_true.mp h x2 hx2
  rw [Bool.or_eq_true] at hall
  rcases hall with hemp | hfail
  · exact absurd (List.isEmpty_iff.mp hemp) hne
  · have hrf : runToks ts x2 = .fail := by
      cases hr : runToks ts x2 with
      | fail => rfl
      | needMore => rw [hr] at hfail; simp [isFail] at hfail
      | success r => rw [hr] at hfail; simp [isFail] at hfail
    exact runToks_fail_absorbs ts x2 w hrf

theorem subst_structure (p : RePat) (s : List Char) :
    subst p s = s ∨
    ∃ g rest2 r, s = g ++ rest2 ∧ matchToks p.toks rest2 = some r ∧
      subst p s = g ++ (p.marker ++ subst p r) := by
  induction s with
  | nil => left; rfl
  | cons c rest ih =>
    cases hm : matchToks p.toks (c :: rest) with
    | some r =>
      right
      exact ⟨[], c :: rest, r, rfl, hm, by rw [subst_cons_match p c rest r hm]; rfl⟩
    | none =>
      rcases ih with h | ⟨g, rest2, r, hsplit, hm2, hout⟩
      · left; rw [subst_cons_none p c rest hm, h]
      · right
        exact ⟨c :: g, rest2, r, by rw [hsplit, List.cons_append],
          hm2, by rw [subst_cons_none p c rest hm, hout, List.cons_append]⟩

/-- Substituting pattern p cannot create a fresh match of a pattern q that
accepts no bracket and definitively fails on every marker suffix: a q-match
in the output implies a q-match already present in the input. -/
theorem matchesIn_subst (q : List Tok) (p : RePat)
    (hnb : noBracket q = true) (hms : markerSafe q p.marker = true)
    (hM : ∃ M2, p.marker = lbrack :: M2) :
    ∀ (s : List Char), MatchesIn q (subst p s) → MatchesIn q s := by
  suffices h : ∀ (n : Nat) (s : List Char), s.length ≤ n →
      MatchesIn q (subst p s) → MatchesIn q s by
    exact fun s => h s.length s le_rfl
  intro n
  induction n with
  | zero =>
    intro s hlen hm
    have : s = [] := List.length_eq_zero.mp (Nat.le_zero.mp hlen)
    rw [this] at hm ⊢
    exact hm
  | succ n ih =>
    intro s hlen hm
    cases s with
    | nil => exact hm
    | cons c rest =>
      cases hmt : matchToks p.toks (c :: rest) with
      | some r =>
        rw [subst_cons_match p c rest r hmt] at hm
        rcases matchesIn_append_elim p.marker _ hm with h1 | ⟨x2, hne, hsuf, hsome⟩
        · have hrlen : r.length ≤ n := by
            have := matchToks_lt p.head_lit _ r hmt
            simp only [List.length_cons] at this hlen
            omega
          exact matchesIn_of_suffix (matchToks_suffix _ _ _ hmt) (ih r hrlen h1)
        · rw [markerSafe_spec hms x2 hsuf hne _] at hsome
          simp at hsome
      | none =>
        rw [subst_cons_none p c rest hmt] at hm
        rcases matchesIn_cons_elim hm with h1 | h2
        · rcases subst_structure p rest with hid | ⟨g, rest2, r, hsplit, hm2, hout⟩
          · rw [hid] at h1
            exact matchesIn_head h1
          · rw [hout] at h1
            obtain ⟨M2, hM2⟩ := hM
            have heq : c :: (g ++ (p.marker ++ subst p r))
                = (c :: g) ++ (lbrack :: (M2 ++ subst p r)) := by
              rw [hM2]
              simp
            rw [heq] at h1
            have h3 := matchToks_transfer q hnb (c :: g) _ h1 rest2
            have h4 : (c :: g) ++ rest2 = c :: rest := by
              rw [List.cons_append, ← hsplit]
            rw [h4] at h3
            exact matchesIn_head h3
        · have hrest : rest.length ≤ n := by
            simp only [List.length_cons] at hlen
            omega
          exact matchesIn_cons c (ih rest hrest h2)

/-- After substituting pattern p, no match of p itself remains. -/
theorem subst_self_clean (p : RePat)
    (hnb : noBracket p.toks = true) (hms : markerSafe p.toks p.marker = true)
    (hM : ∃ M2, p.marker = lbrack :: M2) :
    ∀ (s : List Char), ¬ MatchesIn p.toks (subst p s) := by
  suffices h : ∀ (n : Nat) (s : List Char), s.length ≤ n →
      ¬ MatchesIn p.toks (subst p s) by
    exact fun s => h s.length s le_rfl
  intro n
  induction n with
  | zero =>
    intro s hlen hm
    have : s = [] := List.length_eq_zero.mp (Nat.le_zero.mp hlen)
    rw [this] at hm
    exact matchesIn_nil p.head_lit hm
  | succ n ih =>
    intro s hlen hm
    cases s with
    | nil => exact matchesIn_nil p.head_lit hm
    | cons c rest =>
      cases hmt : matchToks p.toks (c :: rest) with
      | some r =>
        rw [subst_cons_match p c rest r hmt] at hm
        rcases matchesIn_append_elim p.marker _ hm with h1 | ⟨x2, hne, hsuf, hsome⟩
        · have hrlen : r.length ≤ n := by
            have := matchToks_lt p.head_lit _ r hmt
            simp only [List.length_cons] at this hlen
            omega
          exact ih r hrlen h1
        · rw [markerSafe_spec hms x2 hsuf hne _] at hsome
          simp at hsome
      | none =>
        rw [subst_cons_none p c rest hmt] at hm
        rcases matchesIn_cons_elim hm with h1 | h2
        · rcases subst_structure p rest with hid | ⟨g, rest2, r, hsplit, hm2, hout⟩
          · rw [hid] at h1
            rw [hmt] at h1
            simp at h1
          · rw [hout] at h1
            obtain ⟨M2, hM2⟩ := hM
            have heq : c :: (g ++ (p.marker ++ subst p r))
                = (c :: g) ++ (lbrack :: (M2 ++ subst p r)) := by
              rw [hM2]
              simp
            rw [heq] at h1
            have h3 := matchToks_transfer p.toks hnb (c :: g) _ h1 rest2
            have h4 : (c :: g) ++ rest2 = c :: rest := by
              rw [List.cons_append, ← hsplit]
            rw [h4, hmt] at h3
            simp at h3
        · have hrest : rest.length ≤ n := by
            simp only [List.length_cons] at hlen
            omega
          exact ih rest hrest h2

/-- A substitution whose pattern matches nowhere is the identity. -/
theorem subst_id_of_clean (p : RePat) :
    ∀ (s : List Char), ¬ MatchesIn p.toks s → subst p s = s := by
  intro s
  induction s with
  | nil => intro _; rfl
  | cons c rest ih =>
    intro h
    cases hmt : matchToks p.toks (c :: rest) with
    | some r =>
      exact absurd (matchesIn_head (by rw [hmt]; rfl)) h
    | none =>
      rw [subst_cons_none p c rest hmt, ih (fun h2 => h (matchesIn_cons c h2))]

/-- A match inside the stripped text is a match inside the original text. -/
theorem matchesIn_pyStrip {ts : List Tok} (hcls : clsPositive ts = true)
    (s : List Char) (h : MatchesIn ts (pyStripList s)) : MatchesIn ts s := by
  obtain ⟨u, v, hs⟩ := pyStripList_decomp s
  obtain ⟨l, y, hsplit, hm⟩ := h
  have hm2 := matchToks_extend ts hcls y v hm
  exact ⟨u ++ l, y ++ v, by rw [hs, hsplit]; simp [List.append_assoc], hm2⟩

/-! ### The concrete sanitizer of gemini_service._sanitize_text -/

/-- Case-insensitive literal tokens, one per character of s. -/
def litsCI (s : String) : List Tok := s.data.map (fun c => Tok.lit c true)

/-- Case-sensitive literal tokens, one per character of s. -/
def litsCS (s : String) : List Tok := s.data.map (fun c => Tok.lit c false)

/-- The character class of the AIza API-key regex: [0-9A-Za-z_-]. -/
def aizaClass (c : Char) : Bool := c.isAlphanum || c = '_' || c = '-'

/-- The character class of the sk- API-key regex: [0-9A-Za-z]. -/
def skClass (c : Char) : Bool := c.isAlphanum

/-- The replacement for the shell-like dangerous patterns. -/
def redactedMarker : List Char := "[REDACTED]".data

/-- The replacement for API-key shaped tokens. -/
def apiKeyMarker : List Char := "[REDACTED_API_KEY]".data

def rmRfPat : RePat := ⟨litsCI "rm" ++ [Tok.ws] ++ litsCI "-rf", redactedMarker, trivial⟩

def curlPat : RePat := ⟨litsCI "curl" ++ [Tok.ws], redactedMarker, trivial⟩

def wgetPat : RePat := ⟨litsCI "wget" ++ [Tok.ws], redactedMarker, trivial⟩

def bashPat : RePat := ⟨litsCI "bash" ++ [Tok.ws], redactedMarker, trivial⟩

def shPat : RePat := ⟨litsCI "sh" ++ [Tok.ws], redactedMarker, trivial⟩

def execPat : RePat := ⟨litsCI "exec(", redactedMarker, trivial⟩

def evalPat : RePat := ⟨litsCI "eval(", redactedMarker, trivial⟩

def osSystemPat : RePat := ⟨litsCI "os.system", redactedMarker, trivial⟩

def subprocessPat : RePat := ⟨litsCI "subprocess.", redactedMarker, trivial⟩

def aizaPat : RePat := ⟨litsCS "AIza" ++ [Tok.cls aizaClass 35], apiKeyMarker, trivial⟩

def skPat : RePat := ⟨litsCS "sk-" ++ [Tok.cls skClass 48], apiKeyMarker, trivial⟩

/-- The sanitizer substitutions, in the order _sanitize_text applies them:
the nine IGNORECASE shell patterns of dangerous_patterns, then the two
case-sensitive API-key patterns. -/
def sanitizerPats : List RePat :=
  [rmRfPat, curlPat, wgetPat, bashPat, shPat, execPat, evalPat,
   osSystemPat, subprocessPat, aizaPat, skPat]

/-- Apply a list of substitutions left to right. -/
def runSubs (ps : List RePat) (s : List Char) : List Char :=
  ps.foldl (fun acc p => subst p acc) s

/-- Model of gemini_service._sanitize_text: the empty-text early return, the
eleven re.sub redactions in order, and the final str.strip. -/
def sanitize_text (t : String) : String :=
  if t = "" then "" else String.mk (pyStripList (runSubs sanitizerPats t.data))

theorem runSubs_cons (p : RePat) (ps : List RePat) (s : List Char) :
    runSubs (p :: ps) s = runSubs ps (subst p s) := rfl

theorem runSubs_preserve (q : List Tok) (hnb : noBracket q = true) :
    ∀ (ps : List RePat) (t : List Char),
      (∀ p ∈ ps, markerSafe q p.marker = true ∧ ∃ M2, p.marker = lbrack :: M2) →
      ¬ MatchesIn q t → ¬ MatchesIn q (runSubs ps t) := by
  intro ps
  induction ps with
  | nil => intro t _ h; exact h
  | cons p rest ih =>
    intro t hcond h
    rw [runSubs_cons]
    have hp := hcond p (List.mem_cons_self p rest)
    refine ih (subst p t) (fun p2 hp2 => hcond p2 (List.mem_cons_of_mem p hp2)) ?_
    intro hm
    exact h (matchesIn_subst q p hnb hp.1 hp.2 t hm)

theorem runSubs_clean (ps : List RePat) :
    ∀ (s : List Char) (q : RePat), q ∈ ps →
      noBracket q.toks = true →
      (∀ p ∈ ps, markerSafe q.toks p.marker = true ∧ ∃ M2, p.marker = lbrack :: M2) →
      ¬ MatchesIn q.toks (runSubs ps s) := by
  induction ps with
  | nil => intro s q hq; cases hq
  | cons p rest ih =>
    intro s q hq hnb hms
    rw [runSubs_cons]
    rcases List.mem_cons.mp hq with rfl | hq2
    · have hself := hms q (List.mem_cons_self q rest)
      have h1 : ¬ MatchesIn q.toks (subst q s) :=
        subst_self_clean q hnb hself.1 hself.2 s
      exact runSubs_preserve q.toks hnb rest _
        (fun p2 hp2 => hms p2 (List.mem_cons_of_mem q hp2)) h1
    · exact ih (subst p s) q hq2 hnb
        (fun p2 hp2 => hms p2 (List.mem_cons_of_mem p hp2))

theorem runSubs_id_of_clean : ∀ (ps : List RePat) (t : List Char),
    (∀ p ∈ ps, ¬ MatchesIn p.toks t) → runSubs ps t = t := by
  intro ps
  induction ps with
  | nil => intro t _; rfl
  | cons p rest ih =>
    intro t h
    rw [runSubs_cons, subst_id_of_clean p t (h p (List.mem_cons_self p rest))]
    exact ih t (fun p2 hp2 => h p2 (List.mem_cons_of_mem p hp2))

theorem sanitizerPats_noBracket :
    ∀ p ∈ sanitizerPats, noBracket p.toks = true := by
  intro p hp
  fin_cases hp <;> decide

theorem sanitizerPats_clsPositive :
    ∀ p ∈ sanitizerPats, clsPositive p.toks = true := by
  intro p hp
  fin_cases hp <;> decide

theorem sanitizerPats_marker_head :
    ∀ p ∈ sanitizerPats, ∃ M2, p.marker = lbrack :: M2 := by
  intro p hp
  fin_cases hp <;>
    first
      | exact ⟨"REDACTED]".data, by decide⟩
      | exact ⟨"REDACTED_API_KEY]".data, by decide⟩

theorem sanitizerPats_markerSafe :
    ∀ q ∈ sanitizerPats, ∀ p ∈ sanitizerPats,
      markerSafe q.toks p.marker = true := by
  intro q hq p hp
  have hm : p.marker = redactedMarker ∨ p.marker = apiKeyMarker := by
    fin_cases hp <;> simp [rmRfPat, curlPat, wgetPat, bashPat, shPat, execPat,
      evalPat, osSystemPat, subprocessPat, aizaPat, skPat]
  rcases hm with hm | hm <;> rw [hm] <;> fin_cases hq <;> decide

theorem sanitizerPats_conditions :
    ∀ q ∈ sanitizerPats,
      (∀ p ∈ sanitizerPats,
        markerSafe q.toks p.marker = true ∧ ∃ M2, p.marker = lbrack :: M2) := by
  intro q hq p hp
  exact ⟨sanitizerPats_markerSafe q hq p hp, sanitizerPats_marker_head p hp⟩

/-- After a full sanitizer pass, no sanitizer pattern matches anywhere. -/
theorem sanitize_output_clean (u : List Char) :
    ∀ p ∈ sanitizerPats, ¬ MatchesIn p.toks (pyStripList (runSubs sanitizerPats u)) := by
  intro p hp hm
  exact runSubs_clean sanitizerPats u p hp (sanitizerPats_noBracket p hp)
    (sanitizerPats_conditions p hp)
    (matchesIn_pyStrip (sanitizerPats_clsPositive p hp) _ hm)

/-- C9 helper: a second full pass over sanitized text changes nothing. -/
theorem sanitize_list_fixed (u : List Char) :
    runSubs sanitizerPats (pyStripList (runSubs sanitizerPats u))
      = pyStripList (runSubs sanitizerPats u) :=
  runSubs_id_of_clean sanitizerPats _ (sanitize_output_clean u)


/-- C9: sanitization idempotence — for every input string t, applying the
redaction pass of gemini_service._sanitize_text twice yields the same result
as applying it once. -/
theorem C9_sanitize_text_idempotent (t : String) :
    sanitize_text (sanitize_text t) = sanitize_text t := by
  by_cases ht : t = ""
  · rw [ht]
    simp [sanitize_text]
  · have h1 : sanitize_text t = String.mk (pyStripList (runSubs sanitizerPats t.data)) := by
      rw [sanitize_text, if_neg ht]
    have hcore : pyStripList (runSubs sanitizerPats
        (pyStripList (runSubs sanitizerPats t.data)))
        = pyStripList (runSubs sanitizerPats t.data) := by
      rw [sanitize_list_fixed t.data, pyStripList_idem]
    generalize hu : pyStripList (runSubs sanitizerPats t.data) = u at h1 hcore
    rw [h1]
    by_cases hs1 : String.mk u = ""
    · rw [hs1]
      simp [sanitize_text]
    · rw [sanitize_text, if_neg hs1]
      show String.mk (pyStripList (runSubs sanitizerPats u)) = String.mk u
      rw [hcore]

/-! ### gemini_service: severity normalisation, validation, fallback, synthesis -/

/-- _ALLOWED_SEVERITIES (gemini_service.py line 22). -/
def ALLOWED_SEVERITIES : List String := ["low", "medium", "high", "critical"]

/-- _DEFAULT_OVERALL_SEVERITY (line 23). -/
def DEFAULT_OVERALL_SEVERITY : String := "high"

/-- Per-step severity normalisation inside _parse_and_validate_attack_plan
(lines 856-858): str(step.get("severity", "medium")).lower(), then membership
in the allowed set; unrecognized values become "medium". Note that the raw
value is lowercased but not whitespace-stripped. -/
def stepSeverityOf (raw : Option PyVal) : String :=
  let severity := pyLower (pyStr (raw.getD (.str "medium")))
  if severity ∈ ALLOWED_SEVERITIES then severity else "medium"

/-- Plan-level severity normalisation inside _parse_and_validate_attack_plan
(lines 884-886): str(plan_data.get("overall_severity", "high")).lower(),
defaulting to _DEFAULT_OVERALL_SEVERITY; again no whitespace strip. -/
def overallSeverityOf (raw : Option PyVal) : String :=
  let overall := pyLower (pyStr (raw.getD (.str "high")))
  if overall ∈ ALLOWED_SEVERITIES then overall else DEFAULT_OVERALL_SEVERITY

/-- The legacy normaliser _normalise_severity (lines 300-307): string values
are stripped then lowercased; anything else yields the default "high". -/
def normalise_severity (value : Option PyVal) : String :=
  match value with
  | some (.str s) =>
      let lowered := pyLower (pyStrip s)
      if lowered ∈ ALLOWED_SEVERITIES then lowered else DEFAULT_OVERALL_SEVERITY
  | _ => DEFAULT_OVERALL_SEVERITY

/-- A manifest file entry as consumed by the synthesizer and the high-risk
selector. The Python entries are dicts; vulnerabilities mirrors the optional
mapping from vulnerability class to match descriptors, with a missing key
modelled by the empty list exactly as file.get("vulnerabilities", {}) treats
it (both are falsy and have len 0). A missing path is the empty string
(both are falsy). -/
structure ManifestFile where
  path : String
  size : Int
  extension : String
  risk_level : String
  risk_reasons : List String
  vulnerabilities : List (String × List String)
deriving DecidableEq

/-- An attack-plan step dict: the union of the fields produced on the
validated-Gemini path and on the two fallback paths; a field a branch does
not set (or sets to None) is none. -/
structure PlanStep where
  step_number : Nat
  vulnerability_type : Option String
  affected_file : Option String
  description : String
  technique_id : String
  severity : String
  affected_files : List String
deriving DecidableEq

/-- The payload of _parse_and_validate_attack_plan before metadata is
attached. -/
structure ValidatedPlan where
  overall_severity : String
  ai_insight : String
  steps : List PlanStep
deriving DecidableEq

/-- One iteration of the step-sanitization loop of
_parse_and_validate_attack_plan (lines 849-878) on a step that is a dict;
i is the zero-based enumerate index within the first max_steps raw steps. -/
def sanitizeStep (validFiles : List String) (i : Nat)
    (step : List (String × PyVal)) : PlanStep :=
  let description := sanitize_text (pyStrip (pyStr ((dictGet step "description").getD (.str ""))))
  let severity := stepSeverityOf (dictGet step "severity")
  let affected_files :=
    match dictGet step "affected_files" with
    | some (.list xs) =>
        (xs.filterMap (fun f =>
          match f with
          | .str fs => if fs ∈ validFiles || validFiles.isEmpty then some fs else none
          | _ => none)).take 5
    | none => []
    | some _ => []
  let technique_raw := pyStrip (pyStr ((dictGet step "technique_id").getD (.str "")))
  { step_number := i + 1
    vulnerability_type :=
      some (pyStrip (pyStr ((dictGet step "vulnerability_type").getD (.str "Unknown"))))
    affected_file := none
    description := description
    technique_id := if technique_raw = "" then "N/A" else technique_raw
    severity := severity
    affected_files := affected_files }

/-- The step loop: enumerate over the first max_steps raw steps, skipping
entries that are not dicts (their index still advances, as with Python's
enumerate). -/
def sanitizeSteps (validFiles : List String) : Nat → List PyVal → List PlanStep
  | _, [] => []
  | i, .dict entries :: rest =>
      sanitizeStep validFiles i entries :: sanitizeSteps validFiles (i + 1) rest
  | i, _ :: rest => sanitizeSteps validFiles (i + 1) rest

/-- Model of _parse_and_validate_attack_plan (lines 809-896). The markdown
fence stripping and two-stage JSON decode (lines 817-832) run the Python
stdlib (json, re) over the raw response text; that external decode's outcome
enters as the decoded parameter — none when no JSON value was recoverable
(the raised-ValueError path), some v for a decoded value v. Everything from
line 834 on is modelled faithfully; .error marks the raised ValueErrors that
the caller's retry loop catches. -/
def parse_and_validate_attack_plan (decoded : Option PyVal)
    (high_risk_files : List ManifestFile) (max_steps : Nat) :
    Except String ValidatedPlan :=
  match decoded with
  | none => .error "No valid JSON found in Gemini response"
  | some plan_data =>
    match plan_data with
    | .dict entries =>
      match dictGet entries "steps" with
      | some (.list steps_payload) =>
        let validFiles := (high_risk_files.filter (fun f => !(f.path == ""))).map (fun f => f.path)
        let sanitized := sanitizeSteps validFiles 0 (steps_payload.take max_steps)
        if sanitized.isEmpty then .error "No valid steps found in Gemini response"
        else
          let ai_raw := pyStrip (pyStr ((dictGet entries "ai_insight").getD (.str "")))
          .ok
            { overall_severity := overallSeverityOf (dictGet entries "overall_severity")
              ai_insight := if ai_raw = "" then "AI-generated attack plan" else sanitize_text ai_raw
              steps := sanitized }
      | none => .error "Gemini response missing steps array"
      | some _ => .error "Gemini response missing steps array"
    | _ => .error "Gemini response is not a JSON object"

/-- A code sample assembled by step 1 of generate_gemini_attack_plan: file
path, detected vulnerability classes with their match descriptors, and risk
reasons. The content excerpt and language tag carried by the Python dict are
never read by the fallback builder. -/
structure CodeSample where
  file_path : String
  vulnerabilities : List (String × List String)
  risk_reasons : List String
deriving DecidableEq

/-- Python key-membership test on the vulnerabilities dict. -/
def hasClass (s : CodeSample) (cls : String) : Bool :=
  s.vulnerabilities.any (fun e => e.1 == cls)

/-- The SQL-injection fallback step (lines 937-946). -/
def sqlStep (num : Nat) (path : String) : PlanStep :=
  { step_number := num
    vulnerability_type := some "SQL Injection"
    affected_file := some path
    description := "SQL injection vulnerability detected in " ++ path
      ++ ". Attacker can manipulate queries to bypass authentication or extract data."
    technique_id := "T1190"
    severity := "critical"
    affected_files := [path] }

/-- The command-injection fallback step (lines 949-958). -/
def cmdStep (num : Nat) (path : String) : PlanStep :=
  { step_number := num
    vulnerability_type := some "Command Injection"
    affected_file := some path
    description := "Command injection vulnerability in " ++ path
      ++ ". Allows execution of arbitrary system commands."
    technique_id := "T1059"
    severity := "critical"
    affected_files := [path] }

/-- The hardcoded-secrets fallback step (lines 961-970). -/
def secretStep (num : Nat) (path : String) : PlanStep :=
  { step_number := num
    vulnerability_type := some "Hardcoded Credentials"
    affected_file := some path
    description := "Hardcoded secrets found in " ++ path
      ++ ". Credentials can be extracted from source code."
    technique_id := "T1552"
    severity := "high"
    affected_files := [path] }

/-- The scan-derived fallback steps: for each examined sample, one step per
detected class among sql_injection, command_injection, hardcoded_secrets, in
that order, numbered by the running counter; note xss_vulnerable findings
contribute no step. -/
def fallbackSteps : Nat → List CodeSample → List PlanStep
  | _, [] => []
  | num, s :: rest =>
    let sqlSteps := if hasClass s "sql_injection" then [sqlStep num s.file_path] else []
    let num2 := num + sqlSteps.length
    let cmdSteps := if hasClass s "command_injection" then [cmdStep num2 s.file_path] else []
    let num3 := num2 + cmdSteps.length
    let secSteps := if hasClass s "hardcoded_secrets" then [secretStep num3 s.file_path] else []
    let num4 := num3 + secSteps.length
    sqlSteps ++ cmdSteps ++ secSteps ++ fallbackSteps num4 rest

/-- The fixed generic fallback steps (lines 975-990). -/
def genericSteps : List PlanStep :=
  [ { step_number := 1
      vulnerability_type := none
      affected_file := none
      description := "Initial access via exposed CI token in repository secrets"
      technique_id := "T1552"
      severity := "high"
      affected_files := [".github/workflows/deploy.yml"] },
    { step_number := 2
      vulnerability_type := none
      affected_file := none
      description := "Privilege escalation through misconfigured RBAC"
      technique_id := "T1068"
      severity := "critical"
      affected_files := ["deploy/k8s/rbac.yaml"] } ]

/-- The attack-plan payload dict returned by generate_gemini_attack_plan. A
field that a branch leaves out of its dict, or sets to Python None, is none. -/
structure PlanPayload where
  repo_id : Option String
  overall_severity : String
  ai_insight : String
  steps : List PlanStep
  plan_source : Option String
  model_used : Option String
  gemini_prompt : Option String
  gemini_raw_response : Option String
  code_samples_analyzed : Option Nat
deriving DecidableEq

/-- Model of _build_fallback_plan (lines 927-1001): derive steps from the
first three code samples, fall back to the fixed generic pair when none
result, cap the steps at three, and grade the overall severity from the
(uncapped) derived list. -/
def build_fallback_plan (repo_id : String) (code_samples : List CodeSample) : PlanPayload :=
  let derived := fallbackSteps 1 (code_samples.take 3)
  let steps := if derived.isEmpty then genericSteps else derived
  { repo_id := some repo_id
    overall_severity :=
      if steps.any (fun s => s.severity == "critical") then "critical" else "high"
    ai_insight := "Found " ++ toString steps.length
      ++ " potential vulnerabilities through static analysis"
    steps := steps.take 3
    plan_source := some (if code_samples.isEmpty then "fallback" else "fallback_with_scan_results")
    model_used := none
    gemini_prompt := none
    gemini_raw_response := none
    code_samples_analyzed := none }

/-- The Settings fields generate_gemini_attack_plan reads; the API key is
falsy in Python when None or empty. -/
structure GSettings where
  use_gemini : Bool
  gemini_api_key : Option String
  gemini_model : String

def keyConfigured (s : GSettings) : Bool :=
  match s.gemini_api_key with
  | none => false
  | some k => !(k == "")

/-- Outcome of one generate_gemini_response call as the retry loop observes
it: apiError for a returned dict carrying the error key (every HTTP or
transport failure — generate_gemini_response catches all of them), or a
textual response together with the external JSON decode outcome for that
text and the reported model name. -/
inductive GeminiAttempt where
  | apiError
  | response (raw : String) (decoded : Option PyVal) (modelName : String)

/-- The retry loop (step 4, lines 691-739): retry_count runs 0, 1, 2; an
error result or a validation failure increments it, and once it exceeds
max_retries = 2 the fallback plan is returned. The oracle maps each
retry_count value to the outcome of the call made at that count. Fuel (3 at
entry) bounds the iterations; the zero-fuel case is the normal loop exit of
line 739, also a fallback. -/
def geminiLoop (oracle : Nat → GeminiAttempt) (high_risk_files : List ManifestFile)
    (max_steps : Nat) (repo_id : String) (code_samples : List CodeSample)
    (prompt : String) : Nat → Nat → PlanPayload
  | 0, _ => build_fallback_plan repo_id code_samples
  | fuel + 1, retry_count =>
    match oracle retry_count with
    | .apiError =>
        if retry_count + 1 ≤ 2 then
          geminiLoop oracle high_risk_files max_steps repo_id code_samples prompt
            fuel (retry_count + 1)
        else build_fallback_plan repo_id code_samples
    | .response raw decoded modelName =>
        match parse_and_validate_attack_plan decoded high_risk_files max_steps with
        | .ok plan =>
            { repo_id := some repo_id
              overall_severity := plan.overall_severity
              ai_insight := plan.ai_insight
              steps := plan.steps
              plan_source := some "gemini"
              model_used := some modelName
              gemini_prompt := some (prompt.take 1000)
              gemini_raw_response := some (raw.take 2000)
              code_samples_analyzed := some code_samples.length }
        | .error _ =>
            if retry_count + 1 > 2 then build_fallback_plan repo_id code_samples
            else
              geminiLoop oracle high_risk_files max_steps repo_id code_samples prompt
                fuel (retry_count + 1)

/-- Model of generate_gemini_attack_plan (lines 622-739).

Step 1 (lines 641-669) reads up to ten sampled files from disk inside a
per-file try/except that swallows every error; the filesystem being an
external collaborator, the resulting digest list enters as code_samples.
repo_id is repo_profile.get("repo_id", "unknown") as extracted by the
caller. Step 3's prompt construction is wrapped in try/except; promptResult
carries its outcome. Step 4's REST calls are the oracle. -/
def generate_gemini_attack_plan (settings : GSettings) (repo_id : String)
    (high_risk_files : List ManifestFile) (code_samples : List CodeSample)
    (promptResult : Except String String) (oracle : Nat → GeminiAttempt)
    (max_steps : Nat) : PlanPayload :=
  if !settings.use_gemini || !keyConfigured settings then
    build_fallback_plan repo_id code_samples
  else
    match promptResult with
    | .error _ => build_fallback_plan repo_id code_samples
    | .ok prompt =>
        geminiLoop oracle high_risk_files max_steps repo_id code_samples prompt 3 0

/-! ### C1: totality and well-formedness of the plan synthesizer -/

theorem stepSeverityOf_mem (raw : Option PyVal) :
    stepSeverityOf raw ∈ ALLOWED_SEVERITIES := by
  unfold stepSeverityOf
  dsimp only
  split
  · assumption
  · decide

theorem overallSeverityOf_mem (raw : Option PyVal) :
    overallSeverityOf raw ∈ ALLOWED_SEVERITIES := by
  unfold overallSeverityOf
  dsimp only
  split
  · assumption
  · decide

theorem sanitizeSteps_length (validFiles : List String) :
    ∀ (i : Nat) (l : List PyVal), (sanitizeSteps validFiles i l).length ≤ l.length := by
  intro i l
  induction l generalizing i with
  | nil => simp [sanitizeSteps]
  | cons v rest ih =>
    cases v with
    | dict entries =>
      show (sanitizeStep validFiles i entries
        :: sanitizeSteps validFiles (i + 1) rest).length ≤ rest.length + 1
      simpa using ih (i + 1)
    | str s =>
      show (sanitizeSteps validFiles (i + 1) rest).length ≤ rest.length + 1
      exact le_trans (ih (i + 1)) (by omega)
    | int n =>
      show (sanitizeSteps validFiles (i + 1) rest).length ≤ rest.length + 1
      exact le_trans (ih (i + 1)) (by omega)
    | bool b =>
      show (sanitizeSteps validFiles (i + 1) rest).length ≤ rest.length + 1
      exact le_trans (ih (i + 1)) (by omega)
    | null =>
      show (sanitizeSteps validFiles (i + 1) rest).length ≤ rest.length + 1
      exact le_trans (ih (i + 1)) (by omega)
    | list xs =>
      show (sanitizeSteps validFiles (i + 1) rest).length ≤ rest.length + 1
      exact le_trans (ih (i + 1)) (by omega)

theorem parse_and_validate_wf {decoded : Option PyVal}
    {hrf : List ManifestFile} {max_steps : Nat} {plan : ValidatedPlan}
    (h : parse_and_validate_attack_plan decoded hrf max_steps = .ok plan) :
    1 ≤ plan.steps.length ∧ plan.steps.length ≤ max_steps ∧
      plan.overall_severity ∈ ALLOWED_SEVERITIES := by
  unfold parse_and_validate_attack_plan at h
  cases decoded with
  | none => cases h
  | some plan_data =>
    cases plan_data with
    | str s => cases h
    | int n => cases h
    | bool b => cases h
    | null => cases h
    | list xs => cases h
    | dict entries =>
      simp only [] at h
      cases hsteps : dictGet entries "steps" with
      | none => rw [hsteps] at h; cases h
      | some v =>
        cases v with
        | str s => rw [hsteps] at h; cases h
        | int n => rw [hsteps] at h; cases h
        | bool b => rw [hsteps] at h; cases h
        | null => rw [hsteps] at h; cases h
        | dict d => rw [hsteps] at h; cases h
        | list steps_payload =>
          rw [hsteps] at h
          simp only [] at h
          set sanitized := sanitizeSteps
              ((hrf.filter (fun f => !(f.path == ""))).map (fun f => f.path)) 0
              (steps_payload.take max_steps) with hsan
          by_cases hemp : sanitized.isEmpty
          · rw [if_pos hemp] at h; cases h
          · rw [if_neg hemp] at h
            cases h
            refine ⟨?_, ?_, overallSeverityOf_mem _⟩
            · show 1 ≤ sanitized.length
              cases hl : sanitized with
              | nil => rw [hl] at hemp; simp at hemp
              | cons a l2 => simp
            · show sanitized.length ≤ max_steps
              calc sanitized.length ≤ (steps_payload.take max_steps).length := by
                    rw [hsan]; exact sanitizeSteps_length _ 0 _
                _ ≤ max_steps := by simp

theorem build_fallback_plan_wf (repo_id : String) (samples : List CodeSample) :
    1 ≤ (build_fallback_plan repo_id samples).steps.length ∧
    (build_fallback_plan repo_id samples).steps.length ≤ 3 ∧
    (build_fallback_plan repo_id samples).overall_severity ∈ ALLOWED_SEVERITIES := by
  unfold build_fallback_plan
  by_cases hemp : (fallbackSteps 1 (samples.take 3)).isEmpty
  · refine ⟨?_, ?_, ?_⟩
    · simp [hemp, genericSteps]
    · simp [hemp, genericSteps]
    · by_cases hcrit : ((if (fallbackSteps 1 (samples.take 3)).isEmpty then genericSteps
          else fallbackSteps 1 (samples.take 3)).any fun s => s.severity == "critical")
      · simp only [hcrit, if_pos, if_true]
        simp [ALLOWED_SEVERITIES]
      · simp only [hcrit]
        simp [ALLOWED_SEVERITIES]
  · refine ⟨?_, ?_, ?_⟩
    · have hne := List.isEmpty_iff.not.mp hemp
      cases hl : fallbackSteps 1 (samples.take 3) with
      | nil => exact absurd hl hne
      | cons a l2 => simp [hemp, hl]
    · simp only [hemp]
      simp
    · by_cases hcrit : ((if (fallbackSteps 1 (samples.take 3)).isEmpty then genericSteps
          else fallbackSteps 1 (samples.take 3)).any fun s => s.severity == "critical")
      · simp only [hcrit]
        simp [ALLOWED_SEVERITIES]
      · simp only [hcrit]
        simp [ALLOWED_SEVERITIES]

theorem geminiLoop_wf (oracle : Nat → GeminiAttempt) (hrf : List ManifestFile)
    (repo_id : String) (samples : List CodeSample) (prompt : String) :
    ∀ (fuel k : Nat),
      1 ≤ (geminiLoop oracle hrf 3 repo_id samples prompt fuel k).steps.length ∧
      (geminiLoop oracle hrf 3 repo_id samples prompt fuel k).steps.length ≤ 3 ∧
      (geminiLoop oracle hrf 3 repo_id samples prompt fuel k).overall_severity
        ∈ ALLOWED_SEVERITIES := by
  intro fuel
  induction fuel with
  | zero => intro k; exact build_fallback_plan_wf repo_id samples
  | succ fuel ih =>
    intro k
    rw [geminiLoop]
    cases oracle k with
    | apiError =>
      dsimp only
      by_cases hk : k + 1 ≤ 2
      · rw [if_pos hk]; exact ih (k + 1)
      · rw [if_neg hk]; exact build_fallback_plan_wf repo_id samples
    | response raw decoded modelName =>
      dsimp only
      cases hp : parse_and_validate_attack_plan decoded hrf 3 with
      | ok plan =>
        dsimp only
        exact parse_and_validate_wf hp
      | error e =>
        dsimp only
        by_cases hk : k + 1 > 2
        · rw [if_pos hk]; exact build_fallback_plan_wf repo_id samples
        · rw [if_neg hk]; exact ih (k + 1)

/-- C1: the plan synthesizer is total and always returns a well-formed plan.
For every settings value, repository inputs, prompt-construction outcome and
Gemini oracle behaviour (errors, undecodable JSON, missing or empty steps,
zero surviving steps — all covered by the oracle and the validator), with
max_steps = 3 the payload has between 1 and 3 steps and an allowed overall
severity; and whenever Gemini is disabled or its key unconfigured the result
is exactly the fallback payload. Totality (never raising) is inherent in the
model being a total function over every failure branch of the source. -/
theorem C1_generate_plan_total_wf (settings : GSettings) (repo_id : String)
    (hrf : List ManifestFile) (samples : List CodeSample)
    (promptResult : Except String String) (oracle : Nat → GeminiAttempt) :
    (1 ≤ (generate_gemini_attack_plan settings repo_id hrf samples
        promptResult oracle 3).steps.length ∧
      (generate_gemini_attack_plan settings repo_id hrf samples
        promptResult oracle 3).steps.length ≤ 3 ∧
      (generate_gemini_attack_plan settings repo_id hrf samples
        promptResult oracle 3).overall_severity ∈ ALLOWED_SEVERITIES) ∧
    ((settings.use_gemini = false ∨ keyConfigured settings = false) →
      generate_gemini_attack_plan settings repo_id hrf samples promptResult oracle 3
        = build_fallback_plan repo_id samples) := by
  constructor
  · unfold generate_gemini_attack_plan
    by_cases hcfg : (!settings.use_gemini || !keyConfigured settings)
    · rw [if_pos hcfg]; exact build_fallback_plan_wf repo_id samples
    · rw [if_neg hcfg]
      cases promptResult with
      | error e => exact build_fallback_plan_wf repo_id samples
      | ok prompt => exact geminiLoop_wf oracle hrf repo_id samples prompt 3 0
  · intro hoff
    unfold generate_gemini_attack_plan
    have : (!settings.use_gemini || !keyConfigured settings) = true := by
      rcases hoff with h | h <;> simp [h]
    rw [if_pos this]

/-- C1 witness: the guarantees instantiated at a concrete disabled-Gemini
configuration with no code samples. -/
theorem C1_generate_plan_total_wf_witness :
    (1 ≤ (generate_gemini_attack_plan ⟨false, none, "gemini-pro"⟩ "repo" [] []
        (.ok "prompt") (fun _ => .apiError) 3).steps.length ∧
      (generate_gemini_attack_plan ⟨false, none, "gemini-pro"⟩ "repo" [] []
        (.ok "prompt") (fun _ => .apiError) 3).steps.length ≤ 3 ∧
      (generate_gemini_attack_plan ⟨false, none, "gemini-pro"⟩ "repo" [] []
        (.ok "prompt") (fun _ => .apiError) 3).overall_severity ∈ ALLOWED_SEVERITIES) ∧
    generate_gemini_attack_plan ⟨false, none, "gemini-pro"⟩ "repo" [] []
        (.ok "prompt") (fun _ => .apiError) 3 = build_fallback_plan "repo" [] := by
  have h := C1_generate_plan_total_wf ⟨false, none, "gemini-pro"⟩ "repo" [] []
    (.ok "prompt") (fun _ => .apiError)
  exact ⟨h.1, h.2 (Or.inl rfl)⟩

/-! ### C3: fallback plan construction -/

/-- Spec-side reconstruction: delayed steps (functions awaiting their step
number), one per (sample, class) pair, in sample order then class order
sql_injection, command_injection, hardcoded_secrets. -/
def pairFns (samples : List CodeSample) : List (Nat → PlanStep) :=
  samples.flatMap (fun s =>
    (if hasClass s "sql_injection" then [fun n => sqlStep n s.file_path] else []) ++
    (if hasClass s "command_injection" then [fun n => cmdStep n s.file_path] else []) ++
    (if hasClass s "hardcoded_secrets" then [fun n => secretStep n s.file_path] else []))

/-- Number delayed steps consecutively starting at n. -/
def numberFrom : Nat → List (Nat → PlanStep) → List PlanStep
  | _, [] => []
  | n, f :: fs => f n :: numberFrom (n + 1) fs

/-- Spec-side reconstruction of the scan-derived fallback steps: the (file,
class) pairs over the FIRST THREE code samples only, numbered densely
from 1. -/
def specPairSteps (samples : List CodeSample) : List PlanStep :=
  numberFrom 1 (pairFns (samples.take 3))

theorem numberFrom_append : ∀ (l1 l2 : List (Nat → PlanStep)) (n : Nat),
    numberFrom n (l1 ++ l2) = numberFrom n l1 ++ numberFrom (n + l1.length) l2 := by
  intro l1
  induction l1 with
  | nil => intro l2 n; simp [numberFrom]
  | cons f fs ih =>
    intro l2 n
    show f n :: numberFrom (n + 1) (fs ++ l2)
      = f n :: (numberFrom (n + 1) fs ++ numberFrom (n + (f :: fs).length) l2)
    rw [ih l2 (n + 1)]
    have harith : n + 1 + fs.length = n + (f :: fs).length := by
      rw [List.length_cons]
      omega
    rw [harith]

theorem fallbackSteps_eq_numbered : ∀ (samples : List CodeSample) (num : Nat),
    fallbackSteps num samples = numberFrom num (pairFns samples) := by
  intro samples
  induction samples with
  | nil => intro num; rfl
  | cons s rest ih =>
    intro num
    rw [fallbackSteps, pairFns, List.flatMap_cons]
    rw [← pairFns]
    by_cases h1 : hasClass s "sql_injection" <;>
      by_cases h2 : hasClass s "command_injection" <;>
        by_cases h3 : hasClass s "hardcoded_secrets" <;>
          simp [h1, h2, h3, numberFrom_append, numberFrom, ih]

/-- The severity shape of one sample block of fallback steps. -/
def blockSev (x y z : Bool) : List String :=
  (if x then ["critical"] else []) ++ (if y then ["critical"] else [])
    ++ (if z then ["high"] else [])

theorem fallbackSteps_sevs : ∀ (samples : List CodeSample) (num : Nat),
    (fallbackSteps num samples).map (fun st => st.severity)
      = samples.flatMap (fun s => blockSev (hasClass s "sql_injection")
          (hasClass s "command_injection") (hasClass s "hardcoded_secrets")) := by
  intro samples
  induction samples with
  | nil => intro num; rfl
  | cons s rest ih =>
    intro num
    rw [fallbackSteps, List.flatMap_cons]
    by_cases h1 : hasClass s "sql_injection" <;>
      by_cases h2 : hasClass s "command_injection" <;>
        by_cases h3 : hasClass s "hardcoded_secrets" <;>
          simp [h1, h2, h3, blockSev, sqlStep, cmdStep, secretStep, ih]

theorem blockSev_crit_take3_three : ∀ (a b c d e f g h i : Bool),
    ((blockSev a b c ++ blockSev d e f ++ blockSev g h i).any
        (fun s => s == "critical")) = true →
    (((blockSev a b c ++ blockSev d e f ++ blockSev g h i).take 3).any
        (fun s => s == "critical")) = true := by
  decide

theorem blockSev_crit_take3_two : ∀ (a b c d e f : Bool),
    ((blockSev a b c ++ blockSev d e f).any (fun s => s == "critical")) = true →
    (((blockSev a b c ++ blockSev d e f).take 3).any (fun s => s == "critical")) = true := by
  decide

theorem blockSev_crit_take3_one : ∀ (a b c : Bool),
    ((blockSev a b c).any (fun s => s == "critical")) = true →
    (((blockSev a b c).take 3).any (fun s => s == "critical")) = true := by
  decide

/-- Any critical step among the scan-derived fallback steps survives the cap
at three steps: the first three steps cannot all be high-severity while a
critical one is cut off, because high steps (hardcoded secrets) come at most
one per sample and always after that sample's critical steps. -/
theorem fallbackSteps_crit_take3 (samples : List CodeSample)
    (h : ((fallbackSteps 1 (samples.take 3)).any
        (fun st => st.severity == "critical")) = true) :
    (((fallbackSteps 1 (samples.take 3)).take 3).any
        (fun st => st.severity == "critical")) = true := by
  have hmap : ∀ (l : List PlanStep),
      (l.any (fun st => st.severity == "critical"))
        = ((l.map (fun st => st.severity)).any (fun s => s == "critical")) := by
    intro l
    induction l with
    | nil => rfl
    | cons a l2 ih => simp only [List.any_cons, List.map_cons, ih]
  rw [hmap] at h
  rw [hmap, List.map_take]
  rw [fallbackSteps_sevs] at h ⊢
  match samples with
  | [] => simp at h
  | [s1] =>
    simp only [List.take, List.flatMap_cons, List.flatMap_nil, List.append_nil] at h ⊢
    exact blockSev_crit_take3_one _ _ _ h
  | [s1, s2] =>
    simp only [List.take, List.flatMap_cons, List.flatMap_nil, List.append_nil,
      ← List.append_assoc] at h ⊢
    exact blockSev_crit_take3_two _ _ _ _ _ _ h
  | s1 :: s2 :: s3 :: rest =>
    simp only [List.take, List.flatMap_cons, List.flatMap_nil, List.append_nil,
      ← List.append_assoc] at h ⊢
    exact blockSev_crit_take3_three _ _ _ _ _ _ _ _ _ h

/-- C3 counterexample: four code samples in which only the fourth carries a
detected vulnerability class. The claim, as stated, requires one fallback
step per (file, vulnerability-class) pair — here exactly one step, for
(d.py, sql_injection) — but _build_fallback_plan examines only
code_samples[:3], finds nothing, and returns the fixed two-step generic plan
instead. -/
theorem C3_counterexample :
    (∃ s ∈ [CodeSample.mk "a.py" [] [], CodeSample.mk "b.py" [] [],
        CodeSample.mk "c.py" [] [],
        CodeSample.mk "d.py" [("sql_injection", ["Line 1"])] []],
      s.vulnerabilities ≠ []) ∧
    (build_fallback_plan "repo"
        [CodeSample.mk "a.py" [] [], CodeSample.mk "b.py" [] [],
         CodeSample.mk "c.py" [] [],
         CodeSample.mk "d.py" [("sql_injection", ["Line 1"])] []]).steps
      = genericSteps ∧
    ¬ (build_fallback_plan "repo"
        [CodeSample.mk "a.py" [] [], CodeSample.mk "b.py" [] [],
         CodeSample.mk "c.py" [] [],
         CodeSample.mk "d.py" [("sql_injection", ["Line 1"])] []]).steps.length = 1 := by
  refine ⟨⟨CodeSample.mk "d.py" [("sql_injection", ["Line 1"])] [], by simp, by simp⟩, ?_, ?_⟩
  · rfl
  · decide

/-- C3 amended: the fallback plan derives its steps from the FIRST THREE
code samples only — one deterministic step per (file, class) pair over
sql_injection, command_injection, hardcoded_secrets in file order then that
class order (xss findings yield no step), numbered densely from 1 and capped
at three steps; when no step results (no vulnerabilities at all, or
vulnerabilities only beyond the first three samples or only of class
xss_vulnerable), the plan is the fixed two-step generic plan; in either case
overall_severity is critical exactly when one of the plan's (capped) steps
is critical, else high. -/
theorem C3_fallback_plan_amended (repo_id : String) (samples : List CodeSample) :
    (specPairSteps samples ≠ [] →
      (build_fallback_plan repo_id samples).steps = (specPairSteps samples).take 3) ∧
    (specPairSteps samples = [] →
      (build_fallback_plan repo_id samples).steps = genericSteps) ∧
    ((build_fallback_plan repo_id samples).overall_severity =
      if ((build_fallback_plan repo_id samples).steps.any
          (fun st => st.severity == "critical")) = true then "critical" else "high") := by
  have hbridge : fallbackSteps 1 (samples.take 3) = specPairSteps samples :=
    fallbackSteps_eq_numbered (samples.take 3) 1
  by_cases hemp : (fallbackSteps 1 (samples.take 3)).isEmpty
  · have hnil : fallbackSteps 1 (samples.take 3) = [] := List.isEmpty_iff.mp hemp
    have hspec : specPairSteps samples = [] := hbridge ▸ hnil
    have hsteps : (build_fallback_plan repo_id samples).steps = genericSteps := by
      unfold build_fallback_plan
      show ((if (fallbackSteps 1 (samples.take 3)).isEmpty then genericSteps
        else fallbackSteps 1 (samples.take 3)).take 3) = genericSteps
      rw [if_pos hemp]
      decide
    have hsev : (build_fallback_plan repo_id samples).overall_severity = "critical" := by
      unfold build_fallback_plan
      show (if ((if (fallbackSteps 1 (samples.take 3)).isEmpty then genericSteps
          else fallbackSteps 1 (samples.take 3)).any fun s => s.severity == "critical")
          then "critical" else "high") = "critical"
      rw [if_pos hemp]
      decide
    refine ⟨fun hne => absurd hspec hne, fun _ => hsteps, ?_⟩
    rw [hsev, hsteps]
    decide
  · have hne : fallbackSteps 1 (samples.take 3) ≠ [] := List.isEmpty_iff.not.mp hemp
    have hspec : specPairSteps samples ≠ [] := fun h => hne (hbridge.trans h)
    have hsteps : (build_fallback_plan repo_id samples).steps
        = (specPairSteps samples).take 3 := by
      unfold build_fallback_plan
      show ((if (fallbackSteps 1 (samples.take 3)).isEmpty then genericSteps
        else fallbackSteps 1 (samples.take 3)).take 3) = (specPairSteps samples).take 3
      rw [if_neg hemp, hbridge]
    have hsev : (build_fallback_plan repo_id samples).overall_severity
        = if ((fallbackSteps 1 (samples.take 3)).any fun s => s.severity == "critical")
            then "critical" else "high" := by
      unfold build_fallback_plan
      show (if ((if (fallbackSteps 1 (samples.take 3)).isEmpty then genericSteps
          else fallbackSteps 1 (samples.take 3)).any fun s => s.severity == "critical")
          then "critical" else "high") = _
      rw [if_neg hemp]
    refine ⟨fun _ => hsteps, fun h => absurd h hspec, ?_⟩
    rw [hsev, hsteps, ← hbridge]
    by_cases hcrit : ((fallbackSteps 1 (samples.take 3)).any
        fun st => st.severity == "critical") = true
    · have hc3 := fallbackSteps_crit_take3 samples hcrit
      simp only [hcrit, hc3, if_pos, if_true]
    · have hc3 : ¬ (((fallbackSteps 1 (samples.take 3)).take 3).any
          (fun st => st.severity == "critical")) = true := by
        intro h3
        apply hcrit
        rw [List.any_eq_true] at h3 ⊢
        obtain ⟨x, hx, hpx⟩ := h3
        exact ⟨x, (List.take_subset 3 _) hx, hpx⟩
      rw [if_neg (by simpa using hcrit), if_neg hc3]

/-- C3 amended witness: one sample with two detected classes yields the two
class steps in order, numbered 1 and 2, with critical overall severity. -/
theorem C3_fallback_plan_amended_witness :
    (build_fallback_plan "r"
        [CodeSample.mk "app.py" [("sql_injection", ["Line 3"]),
          ("hardcoded_secrets", ["Line 9"])] []]).steps
      = (specPairSteps
          [CodeSample.mk "app.py" [("sql_injection", ["Line 3"]),
            ("hardcoded_secrets", ["Line 9"])] []]).take 3 ∧
    (build_fallback_plan "r"
        [CodeSample.mk "app.py" [("sql_injection", ["Line 3"]),
          ("hardcoded_secrets", ["Line 9"])] []]).overall_severity = "critical" := by
  have h := C3_fallback_plan_amended "r"
    [CodeSample.mk "app.py" [("sql_injection", ["Line 3"]),
      ("hardcoded_secrets", ["Line 9"])] []]
  refine ⟨h.1 (by decide), ?_⟩
  rw [h.2.2]
  decide

/-! ### C5: severity normalisation in the synthesizer's validation -/

/-- A concrete Gemini payload whose only step carries severity " high "
(an allowed value surrounded by whitespace). -/
def c5payload : PyVal :=
  .dict [("overall_severity", .str "low"),
         ("steps", .list [.dict [("description", .str "x"),
                                 ("severity", .str " high ")]])]

/-- C5 counterexample: the claim says severity normalization is
whitespace-insensitive, so the raw step severity " high " — which trims and
lowercases to the allowed value "high" — would normalize to "high"; but
_parse_and_validate_attack_plan only lowercases without stripping, so the
value misses the allow-list and the step comes back "medium". -/
theorem C5_counterexample :
    (parse_and_validate_attack_plan (some c5payload) [] 3).toOption.map
        (fun p => p.steps.map (fun st => st.severity)) = some ["medium"] ∧
    pyLower (pyStrip " high ") ∈ ALLOWED_SEVERITIES := by
  constructor
  · rfl
  · decide

/-- C5 amended: in the enhanced validator, per-step severity normalization
is case-insensitive but NOT whitespace-trimmed, and it never raises (the
normalisers are total functions). The result is medium exactly when the raw
value is absent, or its lowercased (untrimmed) rendering falls outside
{low, medium, high, critical}, or that rendering is itself "medium"; the
plan-level overall_severity is high under the same conditions with "high" in
place of "medium"; and both normalisers always land in the allowed set.
(The legacy _normalise_severity, by contrast, does strip whitespace; see
normalise_severity.) -/
theorem C5_severity_normalisation_amended :
    (∀ s t : String, pyLower s = pyLower t →
        stepSeverityOf (some (.str s)) = stepSeverityOf (some (.str t))) ∧
    (∀ raw : Option PyVal, stepSeverityOf raw = "medium" ↔
        (raw = none ∨ pyLower (pyStr (raw.getD (.str "medium"))) ∉ ALLOWED_SEVERITIES
          ∨ pyLower (pyStr (raw.getD (.str "medium"))) = "medium")) ∧
    (∀ raw : Option PyVal, overallSeverityOf raw = "high" ↔
        (raw = none ∨ pyLower (pyStr (raw.getD (.str "high"))) ∉ ALLOWED_SEVERITIES
          ∨ pyLower (pyStr (raw.getD (.str "high"))) = "high")) ∧
    (∀ raw : Option PyVal, stepSeverityOf raw ∈ ALLOWED_SEVERITIES ∧
        overallSeverityOf raw ∈ ALLOWED_SEVERITIES) ∧
    (∀ s : String, normalise_severity (some (.str s))
        = if pyLower (pyStrip s) ∈ ALLOWED_SEVERITIES
            then pyLower (pyStrip s) else "high") := by
  refine ⟨?_, ?_, ?_, ?_, ?_⟩
  · intro s t hst
    unfold stepSeverityOf
    simp only [Option.getD_some, pyStr]
    rw [hst]
  · intro raw
    cases raw with
    | none =>
      constructor
      · intro _; exact Or.inl rfl
      · intro _; rfl
    | some v =>
      unfold stepSeverityOf
      dsimp only
      by_cases hmem : pyLower (pyStr ((some v).getD (.str "medium"))) ∈ ALLOWED_SEVERITIES
      · rw [if_pos hmem]
        constructor
        · intro heq; exact Or.inr (Or.inr heq)
        · intro hc
          rcases hc with hc | hc | hc
          · cases hc
          · exact absurd hmem hc
          · exact hc
      · rw [if_neg hmem]
        constructor
        · intro _; exact Or.inr (Or.inl hmem)
        · intro _; rfl
  · intro raw
    cases raw with
    | none =>
      constructor
      · intro _; exact Or.inl rfl
      · intro _; rfl
    | some v =>
      unfold overallSeverityOf
      dsimp only
      by_cases hmem : pyLower (pyStr ((some v).getD (.str "high"))) ∈ ALLOWED_SEVERITIES
      · rw [if_pos hmem]
        constructor
        · intro heq; exact Or.inr (Or.inr heq)
        · intro hc
          rcases hc with hc | hc | hc
          · cases hc
          · exact absurd hmem hc
          · exact hc
      · rw [if_neg hmem]
        constructor
        · intro _; exact Or.inr (Or.inl hmem)
        · intro _; rfl
  · intro raw
    exact ⟨stepSeverityOf_mem raw, overallSeverityOf_mem raw⟩
  · intro s
    unfold normalise_severity
    dsimp only
    by_cases hmem : pyLower (pyStrip s) ∈ ALLOWED_SEVERITIES
    · rw [if_pos hmem, if_pos hmem]
    · rw [if_neg hmem, if_neg hmem]
      rfl

/-- C5 amended witness: case-insensitivity and the medium-default at
concrete inputs — "HIGH" equals "high" after lowering; the untrimmed
" high " defaults to medium; an absent severity defaults to medium; the
legacy normaliser strips. -/
theorem C5_severity_normalisation_amended_witness :
    stepSeverityOf (some (.str "HIGH")) = stepSeverityOf (some (.str "high")) ∧
    (stepSeverityOf (some (.str " high ")) = "medium" ↔
      (some (PyVal.str " high ") = none
        ∨ pyLower (pyStr ((some (PyVal.str " high ")).getD (.str "medium")))
            ∉ ALLOWED_SEVERITIES
        ∨ pyLower (pyStr ((some (PyVal.str " high ")).getD (.str "medium")))
            = "medium")) ∧
    normalise_severity (some (.str " high "))
      = if pyLower (pyStrip " high ") ∈ ALLOWED_SEVERITIES
          then pyLower (pyStrip " high ") else "high" := by
  refine ⟨?_, ?_, ?_⟩
  · exact C5_severity_normalisation_amended.1 "HIGH" "high" (by decide)
  · exact C5_severity_normalisation_amended.2.1 (some (.str " high "))
  · exact C5_severity_normalisation_amended.2.2.2.2 " high "

/-! ### repo_fetcher: risk assessment, manifest, high-risk selector -/

/-- Does needle occur as a contiguous run at any position of hay? -/
def containsAux (needle : List Char) : List Char → Bool
  | [] => needle.isEmpty
  | c :: rest => List.isPrefixOf needle (c :: rest) || containsAux needle rest

/-- Substring containment, modelling the Python expression needle in hay. -/
def strContains (hay needle : String) : Bool :=
  containsAux needle.data hay.data

/-- Suffix test, modelling Python str.endswith. -/
def strEndsWith (hay needle : String) : Bool :=
  List.isPrefixOf needle.data.reverse hay.data.reverse

/-- _HIGH_RISK_SUFFIXES (repo_fetcher.py lines 26-30). -/
def HIGH_RISK_SUFFIXES : List String :=
  [".env", ".yaml", ".yml", ".json", ".ini", ".cfg", ".conf",
   ".tf", ".toml", ".pem", ".key", ".ppk", ".p12", ".jks",
   ".properties", ".config", ".xml", ".gradle", ".npmrc"]

/-- _HIGH_RISK_FILENAMES (lines 32-38). -/
def HIGH_RISK_FILENAMES : List String :=
  ["dockerfile", "docker-compose.yml", "docker-compose.yaml",
   ".dockerignore", "jenkinsfile", ".gitlab-ci.yml", ".travis.yml",
   "circle.yml", "bitbucket-pipelines.yml", "azure-pipelines.yml",
   "secrets", "credentials", "passwords", "token", "id_rsa",
   "id_dsa", "known_hosts", ".htpasswd", "web.config"]

/-- _SENSITIVE_KEYWORDS (lines 40-44). -/
def SENSITIVE_KEYWORDS : List String :=
  ["secret", "credential", "token", "password", "config",
   "deploy", "workflow", "env", "key", "private", "api_key",
   "auth", "jwt", "session", "cookie", "database", "db_pass"]

/-- The code_extensions allow-list for content scanning (lines 261-262). -/
def code_extensions : List String :=
  [".py", ".js", ".ts", ".java", ".php", ".rb", ".go",
   ".c", ".cpp", ".cs", ".sql", ".sh", ".bash", ".ps1"]

/-- Python str.title() over the underscore-to-space renamed class names the
scanner produces (ASCII): uppercase a letter after a non-letter, lowercase
otherwise. -/
def pyTitleGo : Bool → List Char → List Char
  | _, [] => []
  | prevAlpha, c :: rest =>
      (if prevAlpha then c.toLower else c.toUpper) :: pyTitleGo c.isAlpha rest

def pyTitle (s : String) : String := String.mk (pyTitleGo false s.data)

/-- vuln_type.replace('_', ' '). -/
def underscoreToSpace (s : String) : String :=
  String.mk (s.data.map (fun c => if c = '_' then ' ' else c))

/-- The five filename/extension/path heuristics of _assess_risk section 1
(lines 244-258), as the list of reasons they produce, in order. -/
def heuristicReasons (name rel_path suffix : String) : List String :=
  let suffixL := pyLower suffix
  let nameL := pyLower name
  let rel_lower := pyLower rel_path
  (if nameL ∈ HIGH_RISK_FILENAMES || suffixL ∈ HIGH_RISK_SUFFIXES
    then ["Sensitive configuration or secret-bearing file"] else [])
  ++ (if SENSITIVE_KEYWORDS.any (fun kw => strContains nameL kw)
    then ["Filename contains sensitive keyword"] else [])
  ++ (if strContains rel_lower ".github/workflows" || strContains rel_lower ".gitlab-ci"
    then ["CI/CD pipeline may expose secrets"] else [])
  ++ (if strContains rel_lower "docker" && decide (suffixL ∈ ["", ".yml", ".yaml"])
    then ["Docker configuration affecting container security"] else [])
  ++ (if strEndsWith rel_lower "/config.json" || strEndsWith rel_lower "/config.yaml"
    then ["Configuration file with potential secrets"] else [])

/-- The vulnerability classes the content scan of _assess_risk section 2
(lines 260-279) reports. The ioScan parameter carries the outcome of the
stat/read/regex-scan attempt, which touches the filesystem and the regex
engine (external collaborators): none when path.stat() raised, some
(size, none) when read_bytes raised, some (size, some classes) when
_scan_file_content returned the listed classes (in _DANGEROUS_PATTERNS
order). The scan is consulted only for code extensions and only under the
size ceiling, exactly as in the source; every raised error yields no
findings. -/
def scannedVulns (suffix : String) (ioScan : Option (Int × Option (List String)))
    (max_size_kb : Int) : List String :=
  if pyLower suffix ∈ code_extensions then
    match ioScan with
    | some (file_size, some vulns) =>
        if file_size < max_size_kb * 1024 then vulns else []
    | _ => []
  else []

/-- Model of _assess_risk (repo_fetcher.py lines 227-289), transcribing the
accumulating reasons list, the has_critical_vuln flag, and the final
precedence chain. max_size_kb defaults to 500 at every call site. -/
def assess_risk (name rel_path suffix : String)
    (ioScan : Option (Int × Option (List String))) (max_size_kb : Int) :
    String × List String :=
  let reasons1 := heuristicReasons name rel_path suffix
  let scanned := scannedVulns suffix ioScan max_size_kb
  let reasons2 := reasons1 ++ scanned.map (fun v =>
    "CRITICAL: " ++ pyTitle (underscoreToSpace v) ++ " detected")
  let has_critical_vuln := !scanned.isEmpty
  if has_critical_vuln then ("critical", reasons2)
  else if !reasons2.isEmpty then ("high", reasons2)
  else if pyLower suffix ∈ [".sh", ".ps1", ".bat"] then ("medium", ["Executable script"])
  else ("low", [])

/-- C6: scanner risk-level precedence — for every regular file, _assess_risk
returns critical exactly when the guarded content scan (attempted only for
allow-listed code extensions on files under the size ceiling, with read
errors swallowed) detected a vulnerability class; otherwise high when some
filename/extension/path heuristic fired; otherwise medium with the single
reason "Executable script" for .sh/.ps1/.bat; otherwise low with no
reasons. -/
theorem C6_assess_risk_precedence (name rel_path suffix : String)
    (ioScan : Option (Int × Option (List String))) :
    assess_risk name rel_path suffix ioScan 500 =
      (if scannedVulns suffix ioScan 500 ≠ [] then
        ("critical", heuristicReasons name rel_path suffix
          ++ (scannedVulns suffix ioScan 500).map (fun v =>
              "CRITICAL: " ++ pyTitle (underscoreToSpace v) ++ " detected"))
      else if heuristicReasons name rel_path suffix ≠ [] then
        ("high", heuristicReasons name rel_path suffix)
      else if pyLower suffix ∈ [".sh", ".ps1", ".bat"] then
        ("medium", ["Executable script"])
      else ("low", [])) := by
  unfold assess_risk
  by_cases hscan : scannedVulns suffix ioScan 500 = [] <;>
    by_cases hheur : heuristicReasons name rel_path suffix = [] <;>
      simp [hscan, hheur, List.isEmpty_iff]

/-- The per-file scan inputs from walking the extracted tree. -/
structure ScanInput where
  rel_path : String
  name : String
  suffix : String
  size : Int
  ioScan : Option (Int × Option (List String))

/-- Model of _build_manifest (repo_fetcher.py lines 172-217), for the fields
any claim touches. The fetched_at timestamp and the top_extensions counter
(whose only subtlety, tie order, follows dict insertion order) are not read
by any claim and are omitted; the extension recorded per file is
path.suffix.lower() and manifest entries never carry a vulnerabilities key
(modelled by the empty list). -/
structure Manifest where
  repo_id : String
  repo_url : String
  owner : String
  name : String
  file_count : Nat
  high_risk_file_count : Nat
  files : List ManifestFile

def build_manifest (repo_id repo_url owner name : String)
    (tree : List ScanInput) : Manifest :=
  let files := tree.map (fun f =>
    let rl := assess_risk f.name f.rel_path f.suffix f.ioScan 500
    ({ path := f.rel_path, size := f.size, extension := pyLower f.suffix,
       risk_level := rl.1, risk_reasons := rl.2, vulnerabilities := [] } : ManifestFile))
  { repo_id := repo_id, repo_url := repo_url, owner := owner, name := name,
    file_count := files.length,
    high_risk_file_count := files.countP (fun f => f.risk_level == "high"),
    files := files }

theorem countP_or_of_disjoint (p q : ManifestFile → Bool)
    (hdisj : ∀ f, ¬ (p f = true ∧ q f = true)) :
    ∀ l : List ManifestFile, l.countP (fun f => p f || q f) = l.countP p + l.countP q := by
  intro l
  induction l with
  | nil => simp
  | cons a l ih =>
    by_cases hp : p a
    · have hq : q a = false := by
        by_cases hqa : q a
        · exact absurd ⟨hp, hqa⟩ (hdisj a)
        · simpa using hqa
      rw [List.countP_cons, List.countP_cons, List.countP_cons]
      simp [hp, hq, ih]
      omega
    · rw [List.countP_cons, List.countP_cons, List.countP_cons]
      by_cases hq : q a
      · simp [hp, hq, ih]
        omega
      · simp [hp, hq, ih]

/-- C7: manifest aggregate asymmetry — high_risk_file_count counts exactly
the entries whose risk level is the string "high"; entries rated "critical"
are excluded from it, yet counted separately, so the count of levels in
{high, critical} splits as high_risk_file_count plus the critical count. -/
theorem C7_high_risk_count_asymmetry (repo_id repo_url owner name : String)
    (tree : List ScanInput) :
    (build_manifest repo_id repo_url owner name tree).high_risk_file_count
        = ((build_manifest repo_id repo_url owner name tree).files.filter
            (fun f => f.risk_level == "high")).length ∧
    (build_manifest repo_id repo_url owner name tree).high_risk_file_count
        + ((build_manifest repo_id repo_url owner name tree).files.filter
            (fun f => f.risk_level == "critical")).length
      = ((build_manifest repo_id repo_url owner name tree).files.filter
            (fun f => f.risk_level == "high" || f.risk_level == "critical")).length := by
  have hdisj : ∀ f : ManifestFile,
      ¬ ((f.risk_level == "high") = true ∧ (f.risk_level == "critical") = true) := by
    rintro f ⟨h1, h2⟩
    rw [beq_iff_eq] at h1 h2
    rw [h1] at h2
    exact absurd h2 (by decide)
  constructor
  · show ((build_manifest repo_id repo_url owner name tree).files).countP
        (fun f => f.risk_level == "high")
      = ((build_manifest repo_id repo_url owner name tree).files.filter
          (fun f => f.risk_level == "high")).length
    rw [List.countP_eq_length_filter]
  · show ((build_manifest repo_id repo_url owner name tree).files).countP
        (fun f => f.risk_level == "high")
        + ((build_manifest repo_id repo_url owner name tree).files.filter
            (fun f => f.risk_level == "critical")).length
      = ((build_manifest repo_id repo_url owner name tree).files.filter
            (fun f => f.risk_level == "high" || f.risk_level == "critical")).length
    rw [← List.countP_eq_length_filter, ← List.countP_eq_length_filter,
      countP_or_of_disjoint _ _ hdisj]

/-! ### C4: high-risk selector ordering -/

/-- The priority_score key of select_high_risk_files (lines 330-344): tier 0
for entries with any detected vulnerabilities — sub-key the (positive)
number of vulnerability classes, then negated size — then tiers 1-4 for
critical/high/medium/other with negated size. Ascending lexicographic
order. -/
def priority_score (file : ManifestFile) : Lex (Nat × Lex (Nat × Int)) :=
  if file.vulnerabilities ≠ [] then
    toLex (0, toLex (file.vulnerabilities.length, -file.size))
  else if file.risk_level = "critical" then toLex (1, toLex (0, -file.size))
  else if file.risk_level = "high" then toLex (2, toLex (0, -file.size))
  else if file.risk_level = "medium" then toLex (3, toLex (0, -file.size))
  else toLex (4, toLex (0, -file.size))

/-- Model of select_high_risk_files (lines 320-347): Python sorted — stable,
ascending by priority_score — truncated to limit. The files list is
manifest.get("files", []), extracted by the caller. -/
def select_high_risk_files (files : List ManifestFile) (limit : Nat) :
    List ManifestFile :=
  (pySorted priority_score files).take limit

/-- C4 counterexample: two vulnerable entries of equal size where the first
carries two vulnerability classes and the second only one. The claim says
more classes sort first; the code's key uses the positive class count, so
the single-class entry comes first. -/
theorem C4_counterexample :
    (ManifestFile.mk "two.py" 10 ".py" "low" []
        [("sql_injection", ["Line 1"]), ("command_injection", ["Line 2"])]
      ).vulnerabilities.length
      > (ManifestFile.mk "one.py" 10 ".py" "low" []
          [("sql_injection", ["Line 1"])]).vulnerabilities.length ∧
    select_high_risk_files
        [ManifestFile.mk "two.py" 10 ".py" "low" []
            [("sql_injection", ["Line 1"]), ("command_injection", ["Line 2"])],
         ManifestFile.mk "one.py" 10 ".py" "low" []
            [("sql_injection", ["Line 1"])]] 15
      = [ManifestFile.mk "one.py" 10 ".py" "low" []
            [("sql_injection", ["Line 1"])],
         ManifestFile.mk "two.py" 10 ".py" "low" []
            [("sql_injection", ["Line 1"]), ("command_injection", ["Line 2"])]] := by
  constructor
  · decide
  · decide

/-- C4 amended: select_high_risk_files returns at most limit entries, sorted
ascending by the code's key — tier 0 for entries with detected
vulnerabilities with FEWER classes first (the key uses the positive class
count) and larger files first on ties, then tiers critical, high, medium,
other with larger files first — the sort permutes the input (stability on
equal keys following Python sorted), and any entry with detected
vulnerabilities is strictly prior in the key order to every entry without,
in particular to a merely critical-risk file. -/
theorem C4_select_high_risk_amended (files : List ManifestFile) (limit : Nat) :
    (select_high_risk_files files limit).length ≤ limit ∧
    (select_high_risk_files files limit).Pairwise
      (fun a b => priority_score a ≤ priority_score b) ∧
    (pySorted priority_score files).Perm files ∧
    (∀ f g : ManifestFile, f.vulnerabilities ≠ [] → g.vulnerabilities = [] →
      priority_score f < priority_score g) := by
  refine ⟨?_, ?_, pySorted_perm priority_score files, ?_⟩
  · show ((pySorted priority_score files).take limit).length ≤ limit
    exact List.length_take_le limit (pySorted priority_score files)
  · exact (pySorted_pairwise priority_score files).sublist
      (List.take_sublist limit (pySorted priority_score files))
  · intro f g hf hg
    have hfs : priority_score f = toLex (0, toLex (f.vulnerabilities.length, -f.size)) := by
      rw [priority_score, if_pos hf]
    have hgtier : ∃ t : Nat, 0 < t ∧ priority_score g = toLex (t, toLex (0, -g.size)) := by
      rw [priority_score, if_neg (by simp [hg])]
      by_cases h1 : g.risk_level = "critical"
      · exact ⟨1, by omega, by rw [if_pos h1]⟩
      · rw [if_neg h1]
        by_cases h2 : g.risk_level = "high"
        · exact ⟨2, by omega, by rw [if_pos h2]⟩
        · rw [if_neg h2]
          by_cases h3 : g.risk_level = "medium"
          · exact ⟨3, by omega, by rw [if_pos h3]⟩
          · exact ⟨4, by omega, by rw [if_neg h3]⟩
    obtain ⟨t, ht, hgs⟩ := hgtier
    rw [hfs, hgs]
    exact Prod.Lex.left _ _ ht

/-- C4 amended witness: the general guarantees applied to a concrete
two-file manifest — a vulnerable low-risk file and a critical file without
findings. -/
theorem C4_select_high_risk_amended_witness :
    (select_high_risk_files
        [ManifestFile.mk "vuln.py" 5 ".py" "low" [] [("sql_injection", ["Line 1"])],
         ManifestFile.mk "crit.pem" 999 ".pem" "critical" [] []] 15).length ≤ 15 ∧
    priority_score
        (ManifestFile.mk "vuln.py" 5 ".py" "low" [] [("sql_injection", ["Line 1"])])
      < priority_score (ManifestFile.mk "crit.pem" 999 ".pem" "critical" [] []) := by
  have h := C4_select_high_risk_amended
    [ManifestFile.mk "vuln.py" 5 ".py" "low" [] [("sql_injection", ["Line 1"])],
     ManifestFile.mk "crit.pem" 999 ".pem" "critical" [] []] 15
  exact ⟨h.1, h.2.2.2 _ _ (by decide) rfl⟩

/-! ### operations: the run-orchestrator cache (C2) -/

/-- An _attack_plan_cache entry: the UTC timestamp captured during the run
and the stored response payload. Time is modelled in rational seconds; the
payload and the persisted effects are opaque type parameters because the
cache logic never inspects them. -/
structure CacheEntry (Payload : Type) where
  timestamp : ℚ
  simulation_data : Payload

/-- Everything simulate_attack computes between the cache check and the
cache write (operations.py lines 273-387): the run timestamp of line 323,
the response payload assembled at line 386, and the persistence/side
effects performed (run file write, store mirroring, insight task). That
block is the pipeline oracle of this model. -/
structure PipelineRun (Payload Effect : Type) where
  timestamp : ℚ
  payload : Payload
  effects : List Effect

/-- Model of the cache logic of simulate_attack (operations.py lines
260-398): a non-forced request finding a cache entry younger than 600
seconds returns the stored payload with no pipeline execution, no effects
and no cache change; any other request runs the pipeline, performs its
effects, and overwrites the cache entry for this repository id with the
fresh timestamp and payload. -/
def simulate_attack {Payload Effect : Type}
    (cache : String → Option (CacheEntry Payload))
    (repo_id : String) (force : Bool) (now : ℚ)
    (pipe : PipelineRun Payload Effect) :
    Payload × (String → Option (CacheEntry Payload)) × List Effect :=
  let hit : Option Payload :=
    match cache repo_id with
    | some entry =>
        if force = false ∧ now - entry.timestamp < 600
        then some entry.simulation_data else none
    | none => none
  match hit with
  | some payload => (payload, cache, [])
  | none =>
      (pipe.payload,
       fun k => if k = repo_id then some ⟨pipe.timestamp, pipe.payload⟩ else cache k,
       pipe.effects)

/-- C2: cache behaviour of the run orchestrator — a non-forced simulate
request that finds a cache entry for the repository id aged strictly less
than 600 seconds returns the stored payload unchanged, runs nothing and
persists nothing; when the entry is 600 seconds old or older, or the
request carries force, the full pipeline re-executes, its effects happen,
and its response overwrites the cache entry for that repository id. -/
theorem C2_cache_behaviour {Payload Effect : Type}
    (cache : String → Option (CacheEntry Payload)) (repo_id : String)
    (now : ℚ) (pipe : PipelineRun Payload Effect) :
    (∀ entry, cache repo_id = some entry → now - entry.timestamp < 600 →
      simulate_attack cache repo_id false now pipe
        = (entry.simulation_data, cache, ([] : List Effect))) ∧
    (∀ entry, cache repo_id = some entry → 600 ≤ now - entry.timestamp →
      ∀ force, simulate_attack cache repo_id force now pipe
        = (pipe.payload,
           fun k => if k = repo_id then some ⟨pipe.timestamp, pipe.payload⟩ else cache k,
           pipe.effects)) ∧
    (∀ force, (force = true ∨ cache repo_id = none) →
      simulate_attack cache repo_id force now pipe
        = (pipe.payload,
           fun k => if k = repo_id then some ⟨pipe.timestamp, pipe.payload⟩ else cache k,
           pipe.effects)) := by
  refine ⟨?_, ?_, ?_⟩
  · intro entry hentry hage
    unfold simulate_attack
    rw [hentry]
    dsimp only
    rw [if_pos ⟨rfl, hage⟩]
  · intro entry hentry hage force
    unfold simulate_attack
    rw [hentry]
    dsimp only
    have hcond : ¬ (force = false ∧ now - entry.timestamp < 600) := by
      rintro ⟨_, hlt⟩
      exact absurd hage (not_le_of_lt hlt)
    rw [if_neg hcond]
  · intro force hf
    unfold simulate_attack
    rcases hf with hf | hf
    · cases hc : cache repo_id with
      | none => rfl
      | some entry =>
        dsimp only
        have hcond : ¬ (force = false ∧ now - entry.timestamp < 600) := by
          rintro ⟨hforce, _⟩
          rw [hf] at hforce
          cases hforce
        rw [if_neg hcond]
    · rw [hf]

/-- C2 witness: the guarantees at concrete instants — a hit at age 599, a
stale entry at age 600, and a forced request. -/
theorem C2_cache_behaviour_witness :
    (simulate_attack (fun k => if k = "repo" then some ⟨0, 42⟩ else none)
        "repo" false 599 ⟨599, 7, [1]⟩
      = ((42 : Nat),
         (fun k => if k = "repo" then some ⟨0, 42⟩ else none), ([] : List Nat))) ∧
    (simulate_attack (fun k => if k = "repo" then some ⟨0, 42⟩ else none)
        "repo" false 600 ⟨600, 7, [1]⟩
      = ((7 : Nat),
         fun k => if k = "repo" then some ⟨(600 : ℚ), (7 : Nat)⟩
           else (fun k2 => if k2 = "repo" then some ⟨0, 42⟩ else none) k,
         ([1] : List Nat))) ∧
    (simulate_attack (fun k => if k = "repo" then some ⟨0, 42⟩ else none)
        "repo" true 1 ⟨1, 7, [1]⟩
      = ((7 : Nat),
         fun k => if k = "repo" then some ⟨(1 : ℚ), (7 : Nat)⟩
           else (fun k2 => if k2 = "repo" then some ⟨0, 42⟩ else none) k,
         ([1] : List Nat))) := by
  have h1 := (@C2_cache_behaviour Nat Nat
      (fun k => if k = "repo" then some ⟨0, 42⟩ else none) "repo" 599 ⟨599, 7, [1]⟩).1
    ⟨0, 42⟩ (by simp) (by norm_num)
  have h2 := (@C2_cache_behaviour Nat Nat
      (fun k => if k = "repo" then some ⟨0, 42⟩ else none) "repo" 600 ⟨600, 7, [1]⟩).2.1
    ⟨0, 42⟩ (by simp) (by norm_num) false
  have h3 := (@C2_cache_behaviour Nat Nat
      (fun k => if k = "repo" then some ⟨0, 42⟩ else none) "repo" 1 ⟨1, 7, [1]⟩).2.2
    true (Or.inl rfl)
  exact ⟨h1, h2, h3⟩

/-! ### operations: report assembly (C8, C10) -/

/-- An attack step of a persisted run. The pydantic schemas module is not
among the sources; its fields here are the ones operations.py reads,
matching the spec's data model (step_number, description, technique_id,
severity, affected_files). -/
structure RunStep where
  step_number : Nat
  description : String
  technique_id : String
  severity : String
  affected_files : List String
deriving DecidableEq

/-- The persisted plan of a run, as read by _build_report. -/
structure RunPlan where
  repo_id : String
  overall_severity : String
  steps : List RunStep
deriving DecidableEq

/-- A persisted simulation run as far as _build_report reads it (the
sandbox log is never consulted there). -/
structure SimulationRun where
  repo_id : String
  run_id : String
  plan : RunPlan
deriving DecidableEq

/-- A summary dict value: a severity string, a step count, or the
affected-files list. -/
inductive SummaryVal where
  | str (s : String)
  | nat (n : Nat)
  | files (fs : List String)
deriving DecidableEq

structure SimulationReport where
  repo_id : String
  run_id : String
  summary : List (String × SummaryVal)
deriving DecidableEq

/-- First-occurrence dedup: the key order of a Python Counter, and the
members of a set built from a list. -/
def firstDedupAux (seen : List String) : List String → List String
  | [] => []
  | x :: xs => if x ∈ seen then firstDedupAux seen xs
      else x :: firstDedupAux (x :: seen) xs

def firstDedup (l : List String) : List String := firstDedupAux [] l

/-- Counter(step.severity.lower() for step in run.plan.steps): severities in
first-occurrence order, each with its total count. -/
def severityCounts (steps : List RunStep) : List (String × Nat) :=
  (firstDedup (steps.map (fun st => pyLower st.severity))).map
    (fun sev => (sev, (steps.map (fun st => pyLower st.severity)).countP
      (fun s => s == sev)))

/-- sorted(set(...)): the distinct affected files over all steps, ascending
by code point. -/
def sortedAffected (steps : List RunStep) : List String :=
  pySorted (fun s => s.data)
    (firstDedup (steps.flatMap (fun st => st.affected_files)))

/-- Model of _build_report (operations.py lines 95-108): the summary dict in
construction order — overall_severity, then one "<severity>_steps" key per
severity occurring among the plan's steps, then affected_files. -/
def build_report (run : SimulationRun) : SimulationReport :=
  { repo_id := run.repo_id
    run_id := run.run_id
    summary :=
      ("overall_severity", SummaryVal.str run.plan.overall_severity)
      :: ((severityCounts run.plan.steps).map
            (fun e => (e.1 ++ "_steps", SummaryVal.nat e.2))
          ++ [("affected_files", SummaryVal.files (sortedAffected run.plan.steps))]) }

/-- Python dict key lookup over the summary. -/
def summaryLookup (summary : List (String × SummaryVal)) (key : String) :
    Option SummaryVal :=
  (summary.find? (fun e => e.1 == key)).map (fun e => e.2)

theorem mem_firstDedupAux : ∀ (l seen : List String) (x : String),
    x ∈ firstDedupAux seen l ↔ x ∈ l ∧ x ∉ seen := by
  intro l
  induction l with
  | nil => intro seen x; simp [firstDedupAux]
  | cons y ys ih =>
    intro seen x
    rw [firstDedupAux]
    by_cases hy : y ∈ seen
    · rw [if_pos hy, ih]
      constructor
      · rintro ⟨hxl, hxs⟩
        exact ⟨List.mem_cons_of_mem y hxl, hxs⟩
      · rintro ⟨hxl, hxs⟩
        rcases List.mem_cons.mp hxl with rfl | hxl
        · exact absurd hy hxs
        · exact ⟨hxl, hxs⟩
    · rw [if_neg hy]
      constructor
      · intro hm
        rcases List.mem_cons.mp hm with rfl | hm2
        · exact ⟨List.mem_cons_self _ _, hy⟩
        · have h2 := (ih (y :: seen) x).mp hm2
          exact ⟨List.mem_cons_of_mem y h2.1,
            fun hxs => h2.2 (List.mem_cons_of_mem y hxs)⟩
      · rintro ⟨hxl, hxs⟩
        rcases List.mem_cons.mp hxl with rfl | hxl2
        · exact List.mem_cons_self _ _
        · by_cases hxy : x = y
          · rw [hxy]; exact List.mem_cons_self _ _
          · exact List.mem_cons_of_mem _
              ((ih (y :: seen) x).mpr ⟨hxl2, by simp [List.mem_cons, hxy, hxs]⟩)

theorem mem_firstDedup (l : List String) (x : String) :
    x ∈ firstDedup l ↔ x ∈ l := by
  rw [firstDedup, mem_firstDedupAux]
  simp

theorem nodup_firstDedupAux : ∀ (l seen : List String),
    (firstDedupAux seen l).Nodup := by
  intro l
  induction l with
  | nil => intro seen; simp [firstDedupAux]
  | cons y ys ih =>
    intro seen
    rw [firstDedupAux]
    by_cases hy : y ∈ seen
    · rw [if_pos hy]; exact ih seen
    · rw [if_neg hy]
      refine List.nodup_cons.mpr ⟨?_, ih (y :: seen)⟩
      intro hmem
      exact ((mem_firstDedupAux ys (y :: seen) y).mp hmem).2 (List.mem_cons_self y seen)

theorem string_append_cancel (a b c : String) (h : a ++ c = b ++ c) : a = b := by
  have hd := congrArg String.data h
  rw [String.data_append, String.data_append] at hd
  exact String.ext (List.append_cancel_right hd)

theorem steps_key_ne_affected (s : String) :
    ¬ (s ++ "_steps" = "affected_files") := by
  intro h
  have hd := congrArg String.data h
  rw [String.data_append] at hd
  have h2 : ("affected_files" : String).data
      = ("affected" : String).data ++ ("_files" : String).data := by decide
  rw [h2] at hd
  have e1 : ("_steps" : String).data.length = 6 := by decide
  have e2 : ("_files" : String).data.length = 6 := by decide
  have e3 : ("affected" : String).data.length = 8 := by decide
  have hlen : s.data.length = ("affected" : String).data.length := by
    have hl := congrArg List.length hd
    rw [List.length_append, List.length_append, e1, e2, e3] at hl
    rw [e3]
    omega
  have h3 := List.append_inj_right hd hlen
  exact absurd h3 (by decide)

theorem steps_key_ne_overall (s : String) :
    ¬ (s ++ "_steps" = "overall_severity") := by
  intro h
  have hd := congrArg String.data h
  rw [String.data_append] at hd
  have h2 : ("overall_severity" : String).data
      = ("overall_se" : String).data ++ ("verity" : String).data := by decide
  rw [h2] at hd
  have e1 : ("_steps" : String).data.length = 6 := by decide
  have e2 : ("verity" : String).data.length = 6 := by decide
  have e3 : ("overall_se" : String).data.length = 10 := by decide
  have hlen : s.data.length = ("overall_se" : String).data.length := by
    have hl := congrArg List.length hd
    rw [List.length_append, List.length_append, e1, e2, e3] at hl
    rw [e3]
    omega
  have h3 := List.append_inj_right hd hlen
  exact absurd h3 (by decide)

theorem summaryLookup_cons (k0 : String) (v : SummaryVal)
    (rest : List (String × SummaryVal)) (k : String) :
    summaryLookup ((k0, v) :: rest) k
      = if k0 == k then some v else summaryLookup rest k := by
  unfold summaryLookup
  cases h : (k0 == k) with
  | true => simp [List.find?_cons, h]
  | false => simp [List.find?_cons, h]

theorem summaryLookup_append (l1 l2 : List (String × SummaryVal)) (k : String) :
    summaryLookup (l1 ++ l2) k
      = match l1.find? (fun e => e.1 == k) with
        | some e => some e.2
        | none => summaryLookup l2 k := by
  induction l1 with
  | nil => simp [summaryLookup]
  | cons e l1 ih =>
    cases h : (e.1 == k) with
    | true =>
      unfold summaryLookup
      simp [List.find?_cons, h]
    | false =>
      show summaryLookup (e :: (l1 ++ l2)) k = _
      rcases e with ⟨k0, v⟩
      rw [summaryLookup_cons, if_neg (by simp [h]), ih]
      simp only [List.find?_cons, h]

theorem find?_steps_map (counts : List (String × Nat)) (sev : String) :
    ((counts.map (fun e => (e.1 ++ "_steps", SummaryVal.nat e.2))).find?
        (fun e => e.1 == sev ++ "_steps"))
      = (counts.find? (fun e => e.1 == sev)).map
          (fun e => (e.1 ++ "_steps", SummaryVal.nat e.2)) := by
  induction counts with
  | nil => simp
  | cons e cs ih =>
    cases h : (e.1 == sev) with
    | true =>
      have he : e.1 = sev := by simpa using h
      have hkey : ((e.1 ++ "_steps" : String) == sev ++ "_steps") = true := by
        simp [he]
      simp only [List.map_cons, List.find?_cons, hkey, h]
      rfl
    | false =>
      have hne : e.1 ≠ sev := by simpa using h
      have hkey : (((e.1 ++ "_steps" : String) == sev ++ "_steps")) = false := by
        rw [beq_eq_false_iff_ne]
        intro hc
        exact hne (string_append_cancel _ _ _ hc)
      simp only [List.map_cons, List.find?_cons, hkey, h, ih]

theorem find?_keyed_map (keys : List String) (f : String → String × Nat)
    (hf : ∀ k, (f k).1 = k) (sev : String) :
    ((keys.map f).find? (fun e => e.1 == sev))
      = if sev ∈ keys then some (f sev) else none := by
  induction keys with
  | nil => simp
  | cons k ks ih =>
    cases h : (k == sev) with
    | true =>
      have he : k = sev := by simpa using h
      subst he
      have hkey : ((f k).1 == k) = true := by simp [hf k]
      simp only [List.map_cons, List.find?_cons, hkey]
      rw [if_pos (List.mem_cons_self k ks)]
    | false =>
      have hne : k ≠ sev := by simpa using h
      have hkey : ((f k).1 == sev) = false := by
        rw [beq_eq_false_iff_ne, hf k]
        exact hne
      simp only [List.map_cons, List.find?_cons, hkey, ih]
      by_cases hmem : sev ∈ ks
      · rw [if_pos hmem, if_pos (List.mem_cons_of_mem k hmem)]
      · rw [if_neg hmem, if_neg (by
          intro hc
          rcases List.mem_cons.mp hc with hc | hc
          · exact hne hc.symm
          · exact hmem hc)]

theorem severityCounts_find (steps : List RunStep) (sev : String) :
    ((severityCounts steps).find? (fun e => e.1 == sev))
      = if sev ∈ steps.map (fun st => pyLower st.severity)
        then some (sev, (steps.map (fun st => pyLower st.severity)).countP
            (fun s => s == sev))
        else none := by
  unfold severityCounts
  rw [find?_keyed_map _ _ (fun k => rfl)]
  by_cases h : sev ∈ firstDedup (steps.map fun st => pyLower st.severity)
  · rw [if_pos h, if_pos ((mem_firstDedup _ _).mp h)]
  · rw [if_neg h, if_neg (fun hc => h ((mem_firstDedup _ _).mpr hc))]

/-- The claim's concrete scenario: two high-severity steps touching a.py
and b.py, with b.py repeated across the steps. -/
def c8run : SimulationRun :=
  ⟨"repo", "run1",
    ⟨"repo", "high",
      [⟨1, "step one", "T1", "high", ["b.py", "a.py"]⟩,
       ⟨2, "step two", "T2", "high", ["b.py"]⟩]⟩⟩


theorem summaryLookup_append_some (l1 l2 : List (String × SummaryVal)) (k : String)
    (v : SummaryVal) (h : summaryLookup l1 k = some v) :
    summaryLookup (l1 ++ l2) k = some v := by
  induction l1 with
  | nil => cases h
  | cons e l1 ih =>
    rcases e with ⟨k0, v0⟩
    rw [summaryLookup_cons] at h
    show summaryLookup ((k0, v0) :: (l1 ++ l2)) k = _
    rw [summaryLookup_cons]
    by_cases hk : (k0 == k)
    · rw [if_pos hk] at h ⊢
      exact h
    · rw [if_neg hk] at h ⊢
      exact ih h

theorem summaryLookup_append_none (l1 l2 : List (String × SummaryVal)) (k : String)
    (h : ∀ e ∈ l1, (e.1 == k) = false) :
    summaryLookup (l1 ++ l2) k = summaryLookup l2 k := by
  induction l1 with
  | nil => rfl
  | cons e l1 ih =>
    rcases e with ⟨k0, v0⟩
    show summaryLookup ((k0, v0) :: (l1 ++ l2)) k = _
    rw [summaryLookup_cons,
      if_neg (by simp [h (k0, v0) (List.mem_cons_self _ _)])]
    exact ih (fun e he => h e (List.mem_cons_of_mem _ he))

/-- The "{severity}_steps" entry of the report summary: present with the
exact recomputed count exactly when the severity occurs among the steps. -/
theorem summary_steps_lookup (run : SimulationRun) (sev : String) :
    summaryLookup (build_report run).summary (sev ++ "_steps")
      = if sev ∈ run.plan.steps.map (fun st => pyLower st.severity)
        then some (SummaryVal.nat (run.plan.steps.countP
            (fun st => pyLower st.severity == sev)))
        else none := by
  show summaryLookup (("overall_severity", SummaryVal.str run.plan.overall_severity)
    :: ((severityCounts run.plan.steps).map
          (fun e => (e.1 ++ "_steps", SummaryVal.nat e.2))
        ++ [("affected_files", SummaryVal.files (sortedAffected run.plan.steps))]))
    (sev ++ "_steps") = _
  rw [summaryLookup_cons,
    if_neg (by simpa using fun hc => steps_key_ne_overall sev hc.symm)]
  by_cases hmem : sev ∈ run.plan.steps.map (fun st => pyLower st.severity)
  · rw [if_pos hmem]
    have hfirst : summaryLookup ((severityCounts run.plan.steps).map
        (fun e => (e.1 ++ "_steps", SummaryVal.nat e.2))) (sev ++ "_steps")
        = some (SummaryVal.nat (run.plan.steps.countP
            (fun st => pyLower st.severity == sev))) := by
      unfold summaryLookup
      rw [find?_steps_map, severityCounts_find, if_pos hmem]
      show some (SummaryVal.nat _) = some (SummaryVal.nat _)
      rw [List.countP_map]
      rfl
    exact summaryLookup_append_some _ _ _ _ hfirst
  · rw [if_neg hmem]
    have hall : ∀ e ∈ (severityCounts run.plan.steps).map
        (fun e => (e.1 ++ "_steps", SummaryVal.nat e.2)),
        (e.1 == sev ++ "_steps") = false := by
      intro e he
      rcases List.mem_map.mp he with ⟨e0, he0, rfl⟩
      rw [beq_eq_false_iff_ne]
      intro hc
      have he1 : e0.1 = sev := string_append_cancel _ _ _ hc
      apply hmem
      rw [← he1]
      rcases List.mem_map.mp he0 with ⟨s0, hs0, rfl⟩
      exact (mem_firstDedup _ _).mp hs0
    rw [summaryLookup_append_none _ _ _ hall]
    rw [summaryLookup_cons,
      if_neg (by simpa using fun hc => steps_key_ne_affected sev hc.symm)]
    rfl

/-- The affected_files entry of the report summary is always present and
carries the sorted duplicate-free union. -/
theorem summary_affected_lookup (run : SimulationRun) :
    summaryLookup (build_report run).summary "affected_files"
      = some (SummaryVal.files (sortedAffected run.plan.steps)) := by
  show summaryLookup (("overall_severity", SummaryVal.str run.plan.overall_severity)
    :: ((severityCounts run.plan.steps).map
          (fun e => (e.1 ++ "_steps", SummaryVal.nat e.2))
        ++ [("affected_files", SummaryVal.files (sortedAffected run.plan.steps))]))
    "affected_files" = _
  rw [summaryLookup_cons, if_neg (by decide)]
  have hall : ∀ e ∈ (severityCounts run.plan.steps).map
      (fun e => (e.1 ++ "_steps", SummaryVal.nat e.2)),
      (e.1 == "affected_files") = false := by
    intro e he
    rcases List.mem_map.mp he with ⟨e0, _, rfl⟩
    rw [beq_eq_false_iff_ne]
    exact steps_key_ne_affected e0.1
  rw [summaryLookup_append_none _ _ _ hall]
  rw [summaryLookup_cons, if_pos (by decide)]

/-- The overall_severity entry of the report summary is always present and
carries the plan's overall severity. -/
theorem summary_overall_lookup (run : SimulationRun) :
    summaryLookup (build_report run).summary "overall_severity"
      = some (SummaryVal.str run.plan.overall_severity) := by
  show summaryLookup (("overall_severity", SummaryVal.str run.plan.overall_severity)
    :: _) "overall_severity" = _
  rw [summaryLookup_cons, if_pos (by decide)]

/-- C8: report recomputation — for every persisted run, the report's
per-severity counts are recomputed from the plan's steps (the
"<severity>_steps" entry is present exactly for occurring severities and
carries the exact step count), and affected_files is the sorted,
duplicate-free union of the steps' affected files; in particular, for the
scenario run with two high steps over a.py and b.py (one file repeated),
high_steps is 2 and affected_files is ["a.py", "b.py"]. -/
theorem C8_report_recomputation (run : SimulationRun) :
    (∀ sev : String,
      summaryLookup (build_report run).summary (sev ++ "_steps")
        = if sev ∈ run.plan.steps.map (fun st => pyLower st.severity)
          then some (SummaryVal.nat (run.plan.steps.countP
              (fun st => pyLower st.severity == sev)))
          else none) ∧
    summaryLookup (build_report run).summary "affected_files"
      = some (SummaryVal.files (sortedAffected run.plan.steps)) ∧
    (sortedAffected run.plan.steps).Nodup ∧
    (sortedAffected run.plan.steps).Pairwise (fun a b => a.data ≤ b.data) ∧
    (∀ x, x ∈ sortedAffected run.plan.steps ↔
      ∃ st ∈ run.plan.steps, x ∈ st.affected_files) ∧
    summaryLookup (build_report c8run).summary "high_steps"
      = some (SummaryVal.nat 2) ∧
    sortedAffected c8run.plan.steps = ["a.py", "b.py"] := by
  refine ⟨fun sev => summary_steps_lookup run sev, summary_affected_lookup run,
    ?_, ?_, ?_, ?_, by decide⟩
  · exact ((pySorted_perm _ _).nodup_iff).mpr (nodup_firstDedupAux _ [])
  · exact pySorted_pairwise _ _
  · intro x
    unfold sortedAffected
    rw [(pySorted_perm _ _).mem_iff, mem_firstDedup, List.mem_flatMap]
  · have h := summary_steps_lookup c8run "high"
    rw [show ("high_steps" : String) = "high" ++ "_steps" from rfl, h]
    decide

/-- C10: the summary omits per-severity keys for severities with zero
steps — the key "<severity>_steps" is present exactly for the severities
occurring (case-insensitively) among the plan's steps, an absent severity
has no key at all (rather than a zero count), while overall_severity and
affected_files are always present. -/
theorem C10_summary_zero_keys_omitted (run : SimulationRun) :
    (∀ sev : String,
      (summaryLookup (build_report run).summary (sev ++ "_steps")).isSome ↔
        ∃ st ∈ run.plan.steps, pyLower st.severity = sev) ∧
    summaryLookup (build_report run).summary "overall_severity"
      = some (SummaryVal.str run.plan.overall_severity) ∧
    (summaryLookup (build_report run).summary "affected_files").isSome ∧
    (∀ sev : String, (¬ ∃ st ∈ run.plan.steps, pyLower st.severity = sev) →
      summaryLookup (build_report run).summary (sev ++ "_steps") = none) := by
  have hkey : ∀ sev : String,
      (sev ∈ run.plan.steps.map (fun st => pyLower st.severity)) ↔
        ∃ st ∈ run.plan.steps, pyLower st.severity = sev := by
    intro sev
    rw [List.mem_map]
  refine ⟨?_, summary_overall_lookup run, ?_, ?_⟩
  · intro sev
    rw [summary_steps_lookup run sev]
    by_cases hmem : sev ∈ run.plan.steps.map (fun st => pyLower st.severity)
    · rw [if_pos hmem]
      simpa using (hkey sev).mp hmem
    · rw [if_neg hmem]
      simp only [Option.isSome_none, Bool.false_eq_true, false_iff]
      exact fun hc => hmem ((hkey sev).mpr hc)
  · rw [summary_affected_lookup run]
    rfl
  · intro sev hno
    rw [summary_steps_lookup run sev,
      if_neg (fun hc => hno ((hkey sev).mp hc))]

/-- C10 witness: at the scenario run, "medium" labels no step and so has no
key at all, while "high" (occurring twice) has one. -/
theorem C10_summary_zero_keys_omitted_witness :
    summaryLookup (build_report c8run).summary ("medium" ++ "_steps") = none ∧
    ((summaryLookup (build_report c8run).summary ("high" ++ "_steps")).isSome ↔
      ∃ st ∈ c8run.plan.steps, pyLower st.severity = "high") := by
  constructor
  · refine (C10_summary_zero_keys_omitted c8run).2.2.2 "medium" ?_
    rintro ⟨st, hst, hs⟩
    have hst2 : st = (⟨1, "step one", "T1", "high", ["b.py", "a.py"]⟩ : RunStep)
        ∨ st = (⟨2, "step two", "T2", "high", ["b.py"]⟩ : RunStep) := by
      simpa [c8run] using hst
    rcases hst2 with rfl | rfl
    · exact absurd hs (by decide)
    · exact absurd hs (by decide)
  · exact (C10_summary_zero_keys_omitted c8run).1 "high"

end Spec2Proof
